import Mathlib

/-!
Verification of the hakoniwa drone delivery servers (`src/rc/server.py` and
`src/rc/mock_server.py`).

The development shallowly embeds the two Python modules:

* JSON scalar values that the handlers coerce with `int(...)` are modelled by
  `PyVal`: `vint n` stands for any value `int(v)` converts successfully
  (integers, numeric strings, floats truncating to `n`), `bad` for any value
  where `int(v)` raises.
* Python dicts keyed by strings are modelled as association lists
  (`List (String × β)`) with `getA` lookup and `setKey` assignment.
* The A* search `DroneController.astar` is modelled by `astarLoop`/`astar`.
  The infinite `while open_set:` loop is given explicit fuel; `.fuelOut`
  models divergence, `.exn` models an uncaught `KeyError`, `.noPath` models
  `return None`, `.path p` a returned node list.  The edge-cost evaluation
  `self.distance(nodes[a]['pos'], nodes[b]['pos'])` (a Euclidean distance,
  hence a real-valued square root) is abstracted into a cost function
  `d : String → String → α` over an ordered additive monoid; the concrete
  Euclidean cost `euclidCost` is also defined, and all search theorems are
  proved for every nonnegative cost, which covers it.  The `f_score` dict is
  carried implicitly: its entries are only ever read as the priorities pushed
  onto the heap, so the model stores the priorities in the open list directly,
  and `heapq` is modelled as extraction of the minimal `(f, id)` pair.
-/

/-- Python scalar input: `vint n` is any value `int(v)` converts to `n`;
`bad` is any value on which `int(v)` raises. -/
inductive PyVal where
  | vint (n : Int)
  | bad
deriving DecidableEq

/-- `mock_server.to_nonneg_int`: `int(v)` clamped below by `0`, with `0` for
values that fail to convert. -/
def to_nonneg_int (v : PyVal) : Int :=
  match v with
  | .vint n => if 0 ≤ n then n else 0
  | .bad => 0

/-- Python `int(v)`: `none` models a raised `ValueError`/`TypeError`. -/
def pyInt (v : PyVal) : Option Int :=
  match v with
  | .vint n => some n
  | .bad => none

/-- Association-list lookup, the model of Python dict read `m[k]`/`m.get(k)`. -/
def getA {β : Type} : List (String × β) → String → Option β
  | [], _ => none
  | (k', v) :: rest, k => if k' = k then some v else getA rest k

/-- Association-list assignment `m[k] = v`: overwrite in place if the key is
present (Python dicts keep insertion position), append otherwise. -/
def setKey {β : Type} : List (String × β) → String → β → List (String × β)
  | [], k, v => [(k, v)]
  | (k', v') :: rest, k, v =>
    if k' = k then (k, v) :: rest else (k', v') :: setKey rest k v

/-- Key deletion `m.pop(k)` / `m.pop(k, None)`: drop the entry with key `k`
(no-op when absent). Python dict keys are unique, so dropping every entry with
that key coincides with popping the single one. -/
def delKey {β : Type} (s : List (String × β)) (k : String) : List (String × β) :=
  s.filter (fun kv => kv.1 ≠ k)

/-- The keys of an association list. -/
def keysOf {β : Type} (s : List (String × β)) : List String := s.map Prod.fst

/-- The `point` member of a registration payload, once known to be a dict:
`dest_id` is `none` when the key is missing (`point.get("dest_id")` falsy and
`None` are collapsed into `none`; an empty string is kept separate). -/
structure PointV where
  dest_id : Option String
deriving DecidableEq

/-! ### mock_server.py: order registration -/

/-- A `/register_order` payload for the mock server: `items` lists the values
of the nine keys `w1..w3,j1..j3,c1..c3` read by `data.get(k, 0)` (a missing key
is `vint 0`); `point` is `none` when the `point` member is missing or is not a
dict. -/
structure MockReq where
  items : List PyVal
  point : Option PointV
deriving DecidableEq

/-- `mock_server.sanitize_order_payload`: rejects a missing/dict-less `point`
or a falsy `dest_id` with the 400 message `point.dest_id is required`, coerces
every quantity with `to_nonneg_int`, and rejects an all-zero order with the
400 message `at least one item is required`.  On success it returns the
coerced quantities and the destination id. -/
def sanitize_order_payload (req : MockReq) : Except String (List Int × String) :=
  match req.point with
  | none => .error "point.dest_id is required"
  | some pv =>
    match pv.dest_id with
    | none => .error "point.dest_id is required"
    | some s =>
      if s = "" then .error "point.dest_id is required"
      else
        let order := req.items.map to_nonneg_int
        if order.sum = 0 then .error "at least one item is required"
        else .ok (order, s)

/-- A stored mock-server order: the sanitized quantities, the destination id,
and the generated `id` member. -/
structure MOrder where
  id : String
  items : List Int
  dest_id : String
deriving DecidableEq

/-- Outcome of the mock `/register_order` handler. -/
inductive MockRegResult where
  | badRequest (msg : String)
  | registered (order_id : String)
deriving DecidableEq

/-- `mock_server.register_order`: sanitize, generate a fresh uuid (`newId`),
store the order under it with its `id` member set to it. -/
def mock_register_order (req : MockReq) (newId : String) (store : List (String × MOrder)) :
    MockRegResult × List (String × MOrder) :=
  match sanitize_order_payload req with
  | .error m => (.badRequest m, store)
  | .ok (items, dest) =>
      (.registered newId, setKey store newId { id := newId, items := items, dest_id := dest })

/-! ### server.py: order registration and the OrderManager -/

/-- A `/register_order` payload for the production server: the three menu
quantities read by `data.get(k, 0)`, and `point`, which is `none` when the
`point` member is missing or falsy (the handler only tests `if not point`). -/
structure SReq where
  omurice : PyVal
  hamburg : PyVal
  onigiri : PyVal
  point : Option PointV
deriving DecidableEq

/-- A stored production-server order (`OrderManager.register_order`'s dict). -/
structure SOrder where
  id : String
  omurice : Int
  hamburg : Int
  onigiri : Int
  point : PointV
deriving DecidableEq

/-- `OrderManager.register_order`: store
`{"id": order_id, "omurice": int(..), "hamburg": int(..), "onigiri": int(..), "point": data["point"]}`
under the fresh uuid `newId`.  Returns `none` when `point` is absent
(`KeyError`) or one of the three `int(...)` conversions raises. -/
def om_register_order (req : SReq) (newId : String) (orders : List (String × SOrder)) :
    Option (List (String × SOrder)) :=
  match req.point, pyInt req.omurice, pyInt req.hamburg, pyInt req.onigiri with
  | some pv, some a, some b, some c =>
      some (setKey orders newId { id := newId, omurice := a, hamburg := b, onigiri := c, point := pv })
  | _, _, _, _ => none

/-- Outcome of the production `/register_order` handler. -/
inductive SRegResult where
  | invalidPoint
  | serverError
  | registered (order_id : String)
deriving DecidableEq

/-- `DeliveryServer.register_order`: reject a falsy `point` with 400
`Invalid point`; otherwise delegate to `OrderManager.register_order`.  An
exception escaping the manager (a non-convertible quantity) surfaces as an
unhandled server error. -/
def server_register_order (req : SReq) (newId : String) (orders : List (String × SOrder)) :
    SRegResult × List (String × SOrder) :=
  match req.point with
  | none => (.invalidPoint, orders)
  | some _ =>
      match om_register_order req newId orders with
      | none => (.serverError, orders)
      | some orders' => (.registered newId, orders')

/-- `OrderManager.complete_order`: pop the entry if present. -/
def complete_order (orders : List (String × SOrder)) (oid : String) : List (String × SOrder) :=
  delKey orders oid

/-- `OrderManager.list_orders`: the stored order dicts. -/
def list_orders (orders : List (String × SOrder)) : List SOrder :=
  orders.map Prod.snd

/-- `OrderManager.get_destination_id`: `orders.get(order_id)`, then
`order.get("point", {}).get("dest_id")`. -/
def get_destination_id (orders : List (String × SOrder)) (oid : String) : Option String :=
  match getA orders oid with
  | none => none
  | some o => o.point.dest_id

/-! ### start_delivery handlers -/

/-- Outcome of a `/start_delivery` handler: the HTTP reply, paired with
whether a delivery unit of work (thread or asyncio task) was started. -/
inductive StartResult where
  | invalidRequest
  | busy
  | started
deriving DecidableEq

/-- `DeliveryServer.start_delivery` (server.py): reject only a missing or
empty `order_id` (`if not order_id`), then unconditionally spawn a
`transport_multi` thread and reply `delivery started`.  The handler takes the
current drone status and the order store as arguments to record that it has
access to both (`self.drone`, `self.orders`) — it consults neither. -/
def server_start_delivery (_droneStatus : String) (_orders : List (String × SOrder))
    (order_id : Option String) : StartResult × Bool :=
  match order_id with
  | none => (.invalidRequest, false)
  | some s => if s = "" then (.invalidRequest, false) else (.started, true)

/-- `mock_server.start_delivery`: 400 for a missing/empty/unknown `order_id`,
409 (`drone busy`) when the drone status is outside `("待機中", "配達完了")`,
otherwise create the `simulate_delivery` task and reply `delivery started`. -/
def mock_start_delivery (order_id : Option String) (orders : List (String × MOrder))
    (droneStatus : String) : StartResult × Bool :=
  match order_id with
  | none => (.invalidRequest, false)
  | some s =>
    if s = "" then (.invalidRequest, false)
    else if (getA orders s).isNone then (.invalidRequest, false)
    else if droneStatus = "待機中" ∨ droneStatus = "配達完了" then (.started, true)
    else (.busy, false)

/-! ### Broadcast rounds

Subscribers are identified by numbers; `ok w = true` means `ws.send_str`
succeeds on subscriber `w` this round, `false` that it raises. -/

/-- One round of `mock_server.broadcast_snapshot` over one subscriber set:
send to every subscriber of `list(WS)`, collect the ones whose send raised
into `dead`, then discard every dead subscriber from the set. The function
is total: a raised send is caught, never escalated. -/
def broadcast_round (ok : Nat → Bool) (subs : List Nat) : List Nat :=
  let dead := subs.filter (fun w => !(ok w))
  subs.filter (fun w => !(dead.contains w))

/-- One round of `DeliveryServer.broadcast_state` (server.py) over one
subscriber set: `asyncio.gather` over all sends without `return_exceptions`,
so one raising subscriber makes the whole round raise (`.error`), and the
subscriber set is left unpruned. -/
def server_broadcast_round (ok : Nat → Bool) (subs : List Nat) : Except Unit (List Nat) :=
  if subs.all ok then .ok subs else .error ()

/-! ### ETA updates -/

/-- Optional-z 3D position (`pos.get('z', DEFAULT_HEIGHT)`), with rational
coordinates so that graphs stay evaluable. -/
structure Pos where
  x : ℚ
  y : ℚ
  z : Option ℚ
deriving DecidableEq

/-- `DEFAULT_SPEED = 1.5` -/
def DEFAULT_SPEED : ℚ := 3 / 2

/-- `DEFAULT_HEIGHT = 0.5` -/
def DEFAULT_HEIGHT : ℚ := 1 / 2

/-- `p.get('z', DEFAULT_HEIGHT)` -/
def getZ (p : Pos) : ℚ := p.z.getD DEFAULT_HEIGHT

/-- `DroneController.distance` / the body of `update_eta`:
`((dx**2 + dy**2 + dz**2)) ** 0.5` — a real-valued Euclidean distance. -/
noncomputable def posDistance (a b : Pos) : ℝ :=
  Real.sqrt ((((a.x : ℝ) - (b.x : ℝ)) ^ 2) + (((a.y : ℝ) - (b.y : ℝ)) ^ 2) +
    (((getZ a : ℝ) - (getZ b : ℝ)) ^ 2))

/-- `eta_sec = distance / DEFAULT_SPEED` in `DroneController.update_eta`. -/
noncomputable def eta_sec (cur target : Pos) : ℝ := posDistance cur target / (DEFAULT_SPEED : ℝ)

/-- The write performed by `DroneController.update_eta` on `state['eta']`:
`if eta is None or fresh < eta: eta = fresh`, i.e. install the fresh estimate
only when it beats the stored one. -/
def update_eta_val {α : Type} [LinearOrder α] (prev : Option α) (fresh : α) : Option α :=
  match prev with
  | none => some fresh
  | some e => if fresh < e then some fresh else some e

/-- `DroneController.update_eta` with its numeric estimate spelled out. -/
noncomputable def update_eta (cur target : Pos) (prev : Option ℝ) : Option ℝ :=
  update_eta_val prev (eta_sec cur target)

/-- The stored ETA after a sequence of refresh-loop iterations with the given
fresh estimates. -/
def eta_trace {α : Type} [LinearOrder α] (fresh : List α) (prev : Option α) : Option α :=
  fresh.foldl update_eta_val prev

/-! ### The waypoint graph and `DroneController.astar` -/

/-- One node of the checkpoint graph: `{"pos": ..., "connect": [...]}`. -/
structure NodeData where
  pos : Pos
  connect : List String
deriving DecidableEq

/-- The concrete edge-cost evaluation of the source,
`self.distance(nodes[a]['pos'], nodes[b]['pos'])`, with missing ids mapped to
the origin (the source would raise there; `astar` models those raises
explicitly before any cost is evaluated). -/
noncomputable def euclidCost (nodes : List (String × NodeData)) (a b : String) : ℝ :=
  posDistance
    ((getA nodes a).map NodeData.pos |>.getD { x := 0, y := 0, z := none })
    ((getA nodes b).map NodeData.pos |>.getD { x := 0, y := 0, z := none })

/-- Result of a run of `DroneController.astar`: an uncaught exception, model
fuel exhaustion (standing for a diverging run), `return None` (no path), or a
returned start-to-goal node list. -/
inductive AStarResult where
  | exn
  | fuelOut
  | noPath
  | path (p : List String)
deriving DecidableEq

/-- The mutable state of the search loop: the `open_set` heap entries
`(f, node)`, the `came_from` dict, and the `g_score` dict (total with
`float('inf')` as `⊤`). -/
structure AState (α : Type) where
  opn : List (WithTop α × String)
  came : String → Option String
  g : String → WithTop α

/-- The minimal entry of the open list under the tuple order used by `heapq`
on `(f_score, node_id)` pairs; the leftmost minimum is kept on exact ties. -/
def minEntry {α : Type} [LinearOrder α] :
    (WithTop α × String) → List (WithTop α × String) → (WithTop α × String)
  | m, [] => m
  | m, y :: ys =>
      if y.1 < m.1 ∨ (y.1 = m.1 ∧ y.2 < m.2) then minEntry y ys else minEntry m ys

/-- `heapq.heappop`: extract a minimal `(f, node)` entry and the rest. -/
def popMin {α : Type} [LinearOrder α] [DecidableEq α] :
    List (WithTop α × String) → Option ((WithTop α × String) × List (WithTop α × String))
  | [] => none
  | x :: xs =>
      let m := minEntry x xs
      some (m, (x :: xs).erase m)

/-- `path = [current]; while current in came_from: current = came_from[current];
path.append(current); return path[::-1]` — the backtracking loop, built here
directly in start-to-goal order, with fuel standing in for the (potential)
divergence of the Python loop on a cyclic predecessor map. -/
def reconstructPath (came : String → Option String) : Nat → String → Option (List String)
  | 0, _ => none
  | fuel + 1, cur =>
    match came cur with
    | none => some [cur]
    | some prev =>
      match reconstructPath came fuel prev with
      | none => none
      | some p => some (p ++ [cur])

/-- The body of `for neighbor in nodes[current]['connect']`: skip a neighbor
absent from the node dict; otherwise relax the edge, and on a strict
improvement record the predecessor, lower `g_score` and push
`(tentative + h(neighbor), neighbor)` (the `f_score` write) onto the heap. -/
def relaxOne {α : Type} [LinearOrderedAddCommMonoid α]
    (d : String → String → α) (nodes : List (String × NodeData)) (goal current : String)
    (st : AState α) (nb : String) : AState α :=
  match getA nodes nb with
  | none => st
  | some _ =>
    if st.g current + (d current nb : α) < st.g nb then
      { opn := st.opn ++ [(st.g current + (d current nb : α) + (d nb goal : α), nb)],
        came := fun m => if m = nb then some current else st.came m,
        g := fun m => if m = nb then st.g current + (d current nb : α) else st.g m }
    else st

/-- The whole neighbor loop of one `while` iteration. -/
def relaxList {α : Type} [LinearOrderedAddCommMonoid α]
    (d : String → String → α) (nodes : List (String × NodeData)) (goal current : String)
    (connect : List String) (st : AState α) : AState α :=
  connect.foldl (relaxOne d nodes goal current) st

/-- The `while open_set:` loop of `DroneController.astar`. -/
def astarLoop {α : Type} [LinearOrderedAddCommMonoid α] [DecidableEq α]
    (d : String → String → α) (nodes : List (String × NodeData)) (goal : String) :
    Nat → AState α → AStarResult
  | 0, _ => .fuelOut
  | fuel + 1, st =>
    match popMin st.opn with
    | none => .noPath
    | some (c, rest) =>
      if c.2 = goal then
        match reconstructPath st.came (fuel + 1) c.2 with
        | none => .fuelOut
        | some p => .path p
      else
        match getA nodes c.2 with
        | none => .exn
        | some nd =>
          astarLoop d nodes goal fuel
            (relaxList d nodes goal c.2 nd.connect { st with opn := rest })

/-- The initial search state: `heappush(open_set, (0, start_id))`, empty
`came_from`, `g_score = inf` everywhere except `g_score[start_id] = 0`. -/
def astarInit {α : Type} [LinearOrderedAddCommMonoid α] (start : String) : AState α :=
  { opn := [(((0 : α) : WithTop α), start)],
    came := fun _ => none,
    g := fun n => if n = start then ((0 : α) : WithTop α) else ⊤ }

/-- `DroneController.astar(nodes, start_id, goal_id)`.  The initialization of
`f_score[start_id]` evaluates `nodes[start_id]['pos']` and
`nodes[goal_id]['pos']`, so an id absent from the node dict raises `KeyError`
(`.exn`) before the loop runs; its numeric value is otherwise never read
(the initial heap entry carries the literal priority `0`). -/
def astar {α : Type} [LinearOrderedAddCommMonoid α] [DecidableEq α]
    (d : String → String → α) (nodes : List (String × NodeData)) (start goal : String)
    (fuel : Nat) : AStarResult :=
  match getA nodes start, getA nodes goal with
  | some _, some _ => astarLoop d nodes goal fuel (astarInit start)
  | _, _ => .exn

/-- Graph adjacency as the claims use it: `b` is listed among the neighbors of
`a` in the node dict. -/
def Adjacent (nodes : List (String × NodeData)) (a b : String) : Prop :=
  ∃ nd, getA nodes a = some nd ∧ b ∈ nd.connect

/-- Reachability along edges whose endpoints exist in the node dict — the
edges the search can traverse. -/
inductive Reach (nodes : List (String × NodeData)) (start : String) : String → Prop where
  | refl : Reach nodes start start
  | step {a b : String} {nd : NodeData} : Reach nodes start a → getA nodes a = some nd →
      b ∈ nd.connect → (getA nodes b).isSome → Reach nodes start b

/-! ### `DroneController.transport_multi`

The vehicle commands (takeoff, moves, grab, land) are external effects; the
model records the delivery run's effect on the order store, the final
lifecycle status string and the stored ETA.  `eta0` is the ETA stored when the
run begins. -/

/-- Observable outcome of a `transport_multi` run: the last status written,
the resulting order store, the stored ETA at the end, and whether the thread
ran to completion (`ok = false` models an uncaught exception killing it). -/
structure TransportOut (α : Type) where
  status : String
  orders : List (String × SOrder)
  eta : Option α
  ok : Bool
deriving DecidableEq

/-- `DroneController.transport_multi` (store/status/ETA effects):

* destination resolution failing (`get_destination_id` returning `None`)
  makes `astar` raise `KeyError(None)` — the thread dies with the last status
  write `配達開始`;
* `astar` raising (absent start/goal id) kills the thread likewise;
* no path: log, write status `待機中`, return with the store untouched;
* a found path: traverse it, release cargo, write `配達完了`, call
  `complete_order`, stop and join the ETA thread, clear `state['eta']`,
  retrace home and finish with status `待機中`.

`none` models a diverging search (never the case for real runs, see the
termination theorem). -/
def transport_multi {α : Type} [LinearOrderedAddCommMonoid α] [DecidableEq α]
    (d : String → String → α) (nodes : List (String × NodeData)) (fuel : Nat)
    (order_id : String) (orders : List (String × SOrder)) (eta0 : Option α) :
    Option (TransportOut α) :=
  match get_destination_id orders order_id with
  | none => some { status := "配達開始", orders := orders, eta := eta0, ok := false }
  | some goal =>
    match astar d nodes "P0" goal fuel with
    | .exn => some { status := "配達開始", orders := orders, eta := eta0, ok := false }
    | .fuelOut => none
    | .noPath => some { status := "待機中", orders := orders, eta := eta0, ok := true }
    | .path _ =>
        some { status := "待機中", orders := complete_order orders order_id,
               eta := none, ok := true }

/-! ### Store invariant (claim C10) -/

/-- Every stored order record carries the key it is stored under as its `id`
member. -/
def StoreInv (s : List (String × SOrder)) : Prop := ∀ kv ∈ s, kv.2.id = kv.1

/-- The same invariant for the mock store. -/
def MStoreInv (s : List (String × MOrder)) : Prop := ∀ kv ∈ s, kv.2.id = kv.1

/-! ### Invariants and termination measure of the search -/

/-- The cost of a node list: the sum of `d` over consecutive pairs. -/
def pathSum {α : Type} [LinearOrderedAddCommMonoid α] (d : String → String → α) :
    List String → α
  | [] => 0
  | [_] => 0
  | a :: b :: rest => d a b + pathSum d (b :: rest)

/-- A cost witness for a finite `g_score` entry: a duplicate-free start-to-`n`
node list over the node dict whose cost is exactly `g n`, and each of whose
stops is already costed at most the cost of the list up to it. -/
structure GoodPath {α : Type} [LinearOrderedAddCommMonoid α] (d : String → String → α)
    (nodes : List (String × NodeData)) (start : String) (g : String → WithTop α)
    (n : String) (p : List String) : Prop where
  headEq : p.head? = some start
  lastEq : p.getLast? = some n
  nodup : p.Nodup
  inKeys : ∀ x ∈ p, (getA nodes x).isSome
  sumEq : ((pathSum d p : α) : WithTop α) = g n
  takeBound : ∀ i (h : i < p.length),
    g (p.get ⟨i, h⟩) ≤ ((pathSum d (p.take (i + 1)) : α) : WithTop α)

/-- The loop invariant of `astarLoop` used for the path-shape claims. -/
structure AInv {α : Type} [LinearOrderedAddCommMonoid α] (d : String → String → α)
    (nodes : List (String × NodeData)) (start : String) (st : AState α) : Prop where
  g_nonneg : ∀ n, 0 ≤ st.g n
  g_start : st.g start = 0
  came_start : st.came start = none
  came_edge : ∀ n c, st.came n = some c →
    Adjacent nodes c n ∧ (getA nodes n).isSome ∧ st.g c ≠ ⊤ ∧ st.g n ≠ ⊤
  g_parent : ∀ n, st.g n ≠ ⊤ → n ≠ start → (st.came n).isSome
  opn_ok : ∀ e ∈ st.opn, (getA nodes e.2).isSome ∧ st.g e.2 ≠ ⊤
  g_reach : ∀ n, st.g n ≠ ⊤ → Reach nodes start n

/-- Every finite `g_score` entry has a cost witness. -/
def PathInv {α : Type} [LinearOrderedAddCommMonoid α] (d : String → String → α)
    (nodes : List (String × NodeData)) (start : String) (g : String → WithTop α) : Prop :=
  ∀ n, g n ≠ ⊤ → ∃ p, GoodPath d nodes start g n p

/-- All duplicate-free node lists over the given key list. -/
def nodupLists (keys : List String) : List (List String) :=
  (keys.sublists.map List.permutations).flatten

/-- Every cost a `g_score` entry can ever hold: the costs of duplicate-free
node lists over the keys. -/
def sumsFin {α : Type} [LinearOrderedAddCommMonoid α] [DecidableEq α]
    (d : String → String → α) (keys : List String) : Finset α :=
  ((nodupLists keys).map (pathSum d)).toFinset

/-- How many achievable costs still lie strictly below `g n`: the number of
strict improvements the entry for `n` can still undergo. -/
def countBelow {α : Type} [LinearOrderedAddCommMonoid α] [DecidableEq α]
    (d : String → String → α) (keys : List String) (g : String → WithTop α) (n : String) :
    Nat :=
  ((sumsFin d keys).filter (fun v : α => (((v : α) : WithTop α) < g n))).card

/-- Total remaining improvement budget of the `g_score` table. -/
def measureC {α : Type} [LinearOrderedAddCommMonoid α] [DecidableEq α]
    (d : String → String → α) (keys : List String) (g : String → WithTop α) : Nat :=
  (keys.map (countBelow d keys g)).sum

/-- The loop variant: every iteration of `astarLoop` strictly decreases it. -/
def measureMu {α : Type} [LinearOrderedAddCommMonoid α] [DecidableEq α]
    (d : String → String → α) (nodes : List (String × NodeData)) (st : AState α) : Nat :=
  2 * measureC d (keysOf nodes) st.g + st.opn.length

/-! ### Concrete instances used by witnesses and counterexamples -/

/-- The spec's example graph: `P0(0,0,0) ↔ P1(3,0,0) ↔ P2(3,4,0)`. -/
def exNodes : List (String × NodeData) :=
  [("P0", { pos := { x := 0, y := 0, z := some 0 }, connect := ["P1"] }),
   ("P1", { pos := { x := 3, y := 0, z := some 0 }, connect := ["P0", "P2"] }),
   ("P2", { pos := { x := 3, y := 4, z := some 0 }, connect := ["P1"] })]

/-- The (integral) Euclidean edge costs of `exNodes` (3, 4, 5 on its edges). -/
def exCost (a b : String) : ℤ :=
  if (a = "P0" ∧ b = "P1") ∨ (a = "P1" ∧ b = "P0") then 3
  else if (a = "P1" ∧ b = "P2") ∨ (a = "P2" ∧ b = "P1") then 4
  else if a = b then 0
  else 5

/-- A two-component graph: `P9` exists but no edge reaches it. -/
def exNodesSplit : List (String × NodeData) :=
  [("P0", { pos := { x := 0, y := 0, z := none }, connect := [] }),
   ("P9", { pos := { x := 9, y := 0, z := none }, connect := [] })]

/-- A store holding one order destined for `P2` under id `o1`. -/
def exOrders : List (String × SOrder) :=
  [("o1", { id := "o1", omurice := 2, hamburg := 0, onigiri := 0,
            point := { dest_id := some "P2" } })]

/-- A store holding one order destined for the unreachable `P9`. -/
def exOrdersSplit : List (String × SOrder) :=
  [("o2", { id := "o2", omurice := 1, hamburg := 0, onigiri := 0,
            point := { dest_id := some "P9" } })]

/-- An all-zero registration request with a present destination. -/
def reqAllZero : SReq :=
  { omurice := .vint 0, hamburg := .vint 0, onigiri := .vint 0,
    point := some { dest_id := some "P2" } }

/-- A registration request with a negative quantity and a present destination. -/
def reqNegative : SReq :=
  { omurice := .vint (-3), hamburg := .vint 0, onigiri := .vint 0,
    point := some { dest_id := some "P2" } }

/-- A registration request with a non-numeric quantity and a present
destination. -/
def reqBadValue : SReq :=
  { omurice := .bad, hamburg := .vint 1, onigiri := .vint 0,
    point := some { dest_id := some "P2" } }

/-- Whether a mock registration outcome is an HTTP 400 rejection. -/
def MockRegResult.isBad : MockRegResult → Bool
  | .badRequest _ => true
  | .registered _ => false

/-- A mock registration payload mixing a valid, a non-numeric and a negative
quantity. -/
def mockReqEx : MockReq :=
  { items := [.vint 2, .bad, .vint (-1)], point := some { dest_id := some "P2" } }

/-- A mock store holding one order under id `o1`. -/
def mockStoreEx : List (String × MOrder) :=
  [("o1", { id := "o1", items := [2, 0, 0, 0, 0, 0, 0, 0, 0], dest_id := "P2" })]

/-!
## Theorems

Helper lemmas about the association-list model, then the claims.
-/

theorem getA_append {β : Type} (s t : List (String × β)) (k : String) :
    getA (s ++ t) k = match getA s k with | some v => some v | none => getA t k := by
  induction s with
  | nil => simp [getA]
  | cons kv rest ih =>
    by_cases h : kv.1 = k
    · simp [getA, h]
    · simpa [getA, h] using ih

theorem getA_setKey_self {β : Type} (s : List (String × β)) (k : String) (v : β) :
    getA (setKey s k v) k = some v := by
  induction s with
  | nil => simp [setKey, getA]
  | cons kv rest ih =>
    rcases kv with ⟨k', v'⟩
    by_cases h : k' = k
    · simp [setKey, h, getA]
    · simp [setKey, h, getA, ih]

theorem getA_eq_none_iff {β : Type} (s : List (String × β)) (k : String) :
    getA s k = none ↔ k ∉ keysOf s := by
  induction s with
  | nil => simp [getA, keysOf]
  | cons kv rest ih =>
    rcases kv with ⟨k', v'⟩
    by_cases h : k' = k
    · simp [getA, h, keysOf]
    · simp only [getA, h, if_false, keysOf, List.map_cons, List.mem_cons, not_or]
      simp only [keysOf] at ih
      constructor
      · intro hnone
        exact ⟨fun hk => h hk.symm, ih.mp hnone⟩
      · intro hpair
        exact ih.mpr hpair.2

theorem mem_delKey {β : Type} (s : List (String × β)) (k : String) (kv : String × β) :
    kv ∈ delKey s k ↔ kv ∈ s ∧ kv.1 ≠ k := by
  simp [delKey, List.mem_filter]

theorem setKey_id_inv {β : Type} (idOf : β → String) (s : List (String × β))
    (hs : ∀ kv ∈ s, idOf kv.2 = kv.1) (k : String) (v : β) (hv : idOf v = k) :
    ∀ kv ∈ setKey s k v, idOf kv.2 = kv.1 := by
  induction s with
  | nil =>
    intro kv hkv
    rcases List.mem_singleton.mp hkv with rfl
    exact hv
  | cons kv0 rest ih =>
    rcases kv0 with ⟨k', v'⟩
    intro kv hkv
    by_cases h : k' = k
    · simp only [setKey, h, if_pos] at hkv
      rcases List.mem_cons.mp hkv with rfl | hmem
      · exact hv
      · exact hs kv (List.mem_cons_of_mem _ hmem)
    · simp only [setKey, h, if_false] at hkv
      rcases List.mem_cons.mp hkv with rfl | hmem
      · exact hs _ (List.mem_cons_self _ _)
      · exact ih (fun kv' hkv' => hs kv' (List.mem_cons_of_mem _ hkv')) kv hmem

theorem sum_eq_zero_of_nonneg (l : List Int) (h : ∀ x ∈ l, 0 ≤ x) :
    l.sum = 0 ↔ ∀ x ∈ l, x = 0 := by
  induction l with
  | nil => simp
  | cons a rest ih =>
    have ha : 0 ≤ a := h a (List.mem_cons_self a rest)
    have hrest : ∀ x ∈ rest, 0 ≤ x := fun x hx => h x (List.mem_cons_of_mem a hx)
    have hsum : 0 ≤ rest.sum := List.sum_nonneg hrest
    constructor
    · intro h0
      have hsc : a + rest.sum = 0 := by simpa using h0
      have ha0 : a = 0 := le_antisymm (by omega) ha
      have hr0 : rest.sum = 0 := by omega
      intro x hx
      rcases List.mem_cons.mp hx with rfl | hx'
      · exact ha0
      · exact (ih hrest).mp hr0 x hx'
    · intro hall
      have : a = 0 := hall a (List.mem_cons_self a rest)
      have : rest.sum = 0 := (ih hrest).mpr (fun x hx => hall x (List.mem_cons_of_mem a hx))
      simp [List.sum_cons, *]

/-- C10: invariant of the order store preserved by register, complete and
list — every stored record's `id` member equals the key it is stored under,
so listed orders carry the id they are stored under, and completion by that
id removes exactly that record.  Holds for the production `OrderManager` and
for the mock `ORDERS` dict. -/
theorem order_store_id_invariant
    (s : List (String × SOrder)) (hs : StoreInv s)
    (req : SReq) (newId k : String)
    (ms : List (String × MOrder)) (hms : MStoreInv ms) (mreq : MockReq) :
    (∀ s', om_register_order req newId s = some s' → StoreInv s') ∧
    StoreInv (complete_order s k) ∧
    (∀ kv, kv ∈ complete_order s k ↔ (kv ∈ s ∧ kv.1 ≠ k)) ∧
    (∀ o ∈ list_orders s, ∃ k', (k', o) ∈ s ∧ o.id = k') ∧
    MStoreInv (mock_register_order mreq newId ms).2 ∧
    MStoreInv (delKey ms k) := by
  refine ⟨?_, ?_, ?_, ?_, ?_, ?_⟩
  · intro s' h
    unfold om_register_order at h
    split at h
    · rcases Option.some_inj.mp h with rfl
      exact setKey_id_inv SOrder.id s hs newId _ rfl
    · exact absurd h (by simp)
  · intro kv hkv
    exact hs kv ((mem_delKey s k kv).mp hkv).1
  · intro kv
    exact mem_delKey s k kv
  · intro o ho
    rcases List.mem_map.mp ho with ⟨kv, hkv, rfl⟩
    exact ⟨kv.1, by simpa using hkv, hs kv hkv⟩
  · unfold mock_register_order
    split
    · exact hms
    · exact setKey_id_inv MOrder.id ms hms newId _ rfl
  · intro kv hkv
    exact hms kv ((mem_delKey ms k kv).mp hkv).1

theorem order_store_id_invariant_witness :
    StoreInv exOrders ∧ MStoreInv ([] : List (String × MOrder)) ∧
    StoreInv (complete_order exOrders "o1") :=
  ⟨by unfold StoreInv; decide, by unfold MStoreInv; decide,
    (order_store_id_invariant exOrders (by unfold StoreInv; decide) reqAllZero "id9" "o1" []
      (by unfold MStoreInv; decide) mockReqEx).2.1⟩

/-- C4 (amended): in the mock server's `broadcast_snapshot`, a subscriber
whose push fails is pruned in that round — the surviving set is exactly the
subscribers whose push succeeded — and the round is a total function (the
raised send is caught, never escalated), so a pruned subscriber also misses
every later round.  In `server.py`'s `broadcast_state`, by contrast, a failed
push propagates out of the `asyncio.gather` and kills the broadcast task
without pruning (see the counterexample). -/
theorem broadcast_round_prunes (ok : Nat → Bool) (subs : List Nat) :
    broadcast_round ok subs = subs.filter ok ∧
    (∀ w ∈ subs, ok w = false → w ∉ broadcast_round ok subs) ∧
    (∀ w, w ∉ subs → w ∉ broadcast_round ok subs) := by
  have hmain : broadcast_round ok subs = subs.filter ok := by
    unfold broadcast_round
    refine List.filter_congr ?_
    intro w hw
    cases hok : ok w with
    | true =>
      simp only [Bool.not_eq_true']
      have : w ∉ subs.filter (fun x => !(ok x)) := by
        simp [List.mem_filter, hok]
      simpa [List.elem_iff] using this
    | false =>
      have : w ∈ subs.filter (fun x => !(ok x)) := by
        simp [List.mem_filter, hw, hok]
      simpa [List.elem_iff] using this
  refine ⟨hmain, ?_, ?_⟩
  · intro w _ hok hmem
    rw [hmain] at hmem
    rcases List.mem_filter.mp hmem with ⟨_, hok'⟩
    rw [hok] at hok'
    exact Bool.false_ne_true hok'
  · intro w hw hmem
    rw [hmain] at hmem
    exact hw (List.mem_filter.mp hmem).1

theorem broadcast_round_prunes_witness :
    ((1 : Nat) ∈ [0, 1, 2]) ∧ ((fun w => w == 0) (1 : Nat) = false) ∧
    (1 : Nat) ∉ broadcast_round (fun w => w == 0) [0, 1, 2] :=
  ⟨by decide, by decide,
    (broadcast_round_prunes (fun w => w == 0) [0, 1, 2]).2.1 1 (by decide) (by decide)⟩

/-- C4 counterexample: in `server.py`'s `broadcast_state`, a single failing
subscriber makes the whole `asyncio.gather` raise — the push failure escapes
the broadcast activity instead of being absorbed, and no pruning happens,
contradicting the claim that push failures are never propagated out. -/
theorem server_broadcast_error_counterexample :
    server_broadcast_round (fun _ => false) [0] = .error () ∧
    (∀ l : List Nat, (Except.error () : Except Unit (List Nat)) ≠ .ok l) :=
  ⟨rfl, fun _ h => Except.noConfusion h⟩

/-- C6: `DroneController.update_eta` writes the minimum of the previously
stored ETA and the freshly computed straight-line estimate
(`distance/DEFAULT_SPEED`, the `eta_sec` of `update_eta`), so the stored ETA
is non-increasing over a leg under any sequence of refreshes, and
`transport_multi` sets the ETA to absent when the delivery leg ends. -/
theorem eta_min_write (α : Type) [LinearOrderedAddCommMonoid α] [DecidableEq α] :
    (∀ cur target prev, update_eta cur target prev = update_eta_val prev (eta_sec cur target)) ∧
    (∀ f : α, update_eta_val none f = some f) ∧
    (∀ e f : α, update_eta_val (some e) f = some (min f e)) ∧
    (∀ e f x : α, update_eta_val (some e) f = some x → x ≤ e) ∧
    (∀ (fs : List α) (e x : α), eta_trace fs (some e) = some x → x ≤ e) ∧
    (∀ (d : String → String → α) (nodes : List (String × NodeData)) (fuel : Nat)
        (oid : String) (orders : List (String × SOrder)) (eta0 : Option α)
        (goal : String) (p : List String) (out : TransportOut α),
        get_destination_id orders oid = some goal →
        astar d nodes "P0" goal fuel = .path p →
        transport_multi d nodes fuel oid orders eta0 = some out →
        out.eta = none ∧ out.status = "待機中") := by
  have hmin : ∀ e f : α, update_eta_val (some e) f = some (min f e) := by
    intro e f
    show (if f < e then some f else some e) = some (min f e)
    by_cases h : f < e
    · rw [if_pos h, min_eq_left h.le]
    · rw [if_neg h, min_eq_right (le_of_not_lt h)]
  refine ⟨fun _ _ _ => rfl, fun _ => rfl, hmin, ?_, ?_, ?_⟩
  · intro e f x h
    rw [hmin] at h
    rcases Option.some_inj.mp h with rfl
    exact min_le_right f e
  · intro fs
    induction fs with
    | nil =>
      intro e x h
      rcases Option.some_inj.mp h with rfl
      exact le_refl _
    | cons f rest ih =>
      intro e x h
      unfold eta_trace at h
      rw [List.foldl_cons, hmin] at h
      exact le_trans (ih (min f e) x h) (min_le_right f e)
  · intro d nodes fuel oid orders eta0 goal p out hdest hpath htr
    simp only [transport_multi, hdest, hpath] at htr
    rcases Option.some_inj.mp htr with rfl
    exact ⟨rfl, rfl⟩

theorem eta_min_write_witness :
    get_destination_id exOrders "o1" = some "P2" ∧
    astar exCost exNodes "P0" "P2" 20 = AStarResult.path ["P0", "P1", "P2"] ∧
    transport_multi exCost exNodes 20 "o1" exOrders (some (5 : ℤ)) =
      some { status := "待機中", orders := [], eta := none, ok := true } ∧
    ({ status := "待機中", orders := [], eta := none, ok := true } : TransportOut ℤ).eta
      = none :=
  ⟨by decide, by decide, by decide,
    ((eta_min_write ℤ).2.2.2.2.2 exCost exNodes 20 "o1" exOrders (some 5) "P2"
      ["P0", "P1", "P2"] _ (by decide) (by decide) (by decide)).1⟩

theorem sanitize_error_msgs (req : MockReq) (m : String)
    (h : sanitize_order_payload req = .error m) :
    m = "point.dest_id is required" ∨ m = "at least one item is required" := by
  unfold sanitize_order_payload at h
  split at h
  · left
    exact (Except.error.inj h).symm
  · split at h
    · left
      exact (Except.error.inj h).symm
    · split at h
      · left
        exact (Except.error.inj h).symm
      · by_cases hz : (List.map to_nonneg_int req.items).sum = 0
        · simp only [hz, if_true] at h
          right
          exact (Except.error.inj h).symm
        · simp only [hz, if_false] at h
          exact absurd h (by simp)

/-- C9 (amended): in the mock server every quantity passes through
`to_nonneg_int`, which is total and clamps — non-negative integers pass
through, negative and non-convertible values become `0` — and a registration
can only fail on the destination or all-zero checks, never on a quantity
value.  The production server's `OrderManager.register_order` instead stores
`int(v)` raw: a negative quantity is stored unchanged and a non-convertible
one raises, failing the whole request (see the counterexample). -/
theorem quantity_coercion_spec :
    (∀ v, 0 ≤ to_nonneg_int v) ∧
    (to_nonneg_int .bad = 0) ∧
    (∀ n : Int, n < 0 → to_nonneg_int (.vint n) = 0) ∧
    (∀ n : Int, 0 ≤ n → to_nonneg_int (.vint n) = n) ∧
    (∀ (req : MockReq) (newId : String) (store : List (String × MOrder)) (m : String),
        (mock_register_order req newId store).1 = .badRequest m →
        m = "point.dest_id is required" ∨ m = "at least one item is required") ∧
    (∀ (req : SReq) (newId : String) (orders : List (String × SOrder)),
        pyInt req.omurice = none →
        server_register_order req newId orders = (.serverError, orders) ∨
        server_register_order req newId orders = (.invalidPoint, orders)) ∧
    (∀ (req : SReq) (newId : String) (orders : List (String × SOrder))
        (pv : PointV) (a b c : Int) (s' : List (String × SOrder)),
        req.point = some pv → pyInt req.omurice = some a → pyInt req.hamburg = some b →
        pyInt req.onigiri = some c → om_register_order req newId orders = some s' →
        getA s' newId =
          some { id := newId, omurice := a, hamburg := b, onigiri := c, point := pv }) := by
  refine ⟨?_, rfl, ?_, ?_, ?_, ?_, ?_⟩
  · intro v
    rcases v with n | _
    · show (0 : Int) ≤ if 0 ≤ n then n else 0
      by_cases h : 0 ≤ n
      · rwa [if_pos h]
      · rw [if_neg h]
    · exact le_refl 0
  · intro n h
    show (if 0 ≤ n then n else (0 : Int)) = 0
    rw [if_neg (not_le.mpr h)]
  · intro n h
    show (if 0 ≤ n then n else (0 : Int)) = n
    rw [if_pos h]
  · intro req newId store m h
    unfold mock_register_order at h
    rcases hs : sanitize_order_payload req with m' | ok
    · rw [hs] at h
      simp only [] at h
      exact (MockRegResult.badRequest.inj h) ▸ sanitize_error_msgs req m' hs
    · rw [hs] at h
      exact absurd h (by simp)
  · intro req newId orders h
    unfold server_register_order
    rcases hp : req.point with _ | pv
    · right
      rfl
    · left
      have hom : om_register_order req newId orders = none := by
        unfold om_register_order
        rw [hp, h]
      rw [hom]
  · intro req newId orders pv a b c s' hp ha hb hc h
    unfold om_register_order at h
    rw [hp, ha, hb, hc] at h
    rcases Option.some_inj.mp h with rfl
    exact getA_setKey_self orders newId _

/-- C9 counterexample: the production server stores a negative quantity
unchanged (the claim requires it to become zero) and fails the whole request
on a non-numeric quantity (the claim requires such values to coerce to zero
without failing the request). -/
theorem server_negative_quantity_counterexample :
    server_register_order reqNegative "id0" [] =
      (.registered "id0",
        [("id0", { id := "id0", omurice := -3, hamburg := 0, onigiri := 0,
                   point := { dest_id := some "P2" } })]) ∧
    ((-3 : Int) ≠ 0) ∧
    (server_register_order reqBadValue "id0" []).1 = .serverError :=
  ⟨by decide, by decide, by decide⟩

theorem quantity_coercion_spec_witness :
    (pyInt reqBadValue.omurice = none) ∧
    (server_register_order reqBadValue "id1" [] = (.serverError, []) ∨
     server_register_order reqBadValue "id1" [] = (.invalidPoint, [])) :=
  ⟨by decide, quantity_coercion_spec.2.2.2.2.2.1 reqBadValue "id1" [] (by decide)⟩

theorem sanitize_ok_items (req : MockReq) (items : List Int) (dest : String)
    (h : sanitize_order_payload req = .ok (items, dest)) :
    items = req.items.map to_nonneg_int := by
  unfold sanitize_order_payload at h
  split at h
  · exact absurd h (by simp)
  · split at h
    · exact absurd h (by simp)
    · split at h
      · exact absurd h (by simp)
      · by_cases hz : (req.items.map to_nonneg_int).sum = 0
        · simp only [hz, if_true] at h
          exact absurd h (by simp)
        · simp only [hz, if_false] at h
          exact ((Prod.mk.injEq _ _ _ _).mp (Except.ok.inj h)).1.symm

theorem to_nonneg_int_nonneg (v : PyVal) : 0 ≤ to_nonneg_int v := by
  rcases v with n | _
  · show (0 : Int) ≤ if 0 ≤ n then n else 0
    by_cases h : 0 ≤ n
    · rwa [if_pos h]
    · rw [if_neg h]
  · exact le_refl 0

/-- C2 (amended): mock registration fails with a 400 `ValidationError` exactly
when the destination is missing/falsy or every quantity coerces to zero
(negative and non-numeric quantities coerce to zero, so "all zero or negative
or invalid" is the precise condition); otherwise it succeeds, stores the
sanitized order under the fresh uuid, and that id differs from every
previously issued id.  The production server checks only that `point` is
truthy and registers an all-zero order (see the counterexample). -/
theorem mock_register_validation (req : MockReq) (newId : String)
    (store : List (String × MOrder)) :
    ((mock_register_order req newId store).1.isBad = true ↔
        (req.point = none ∨
         (∃ pv, req.point = some pv ∧ (pv.dest_id = none ∨ pv.dest_id = some "")) ∨
         (req.items.map to_nonneg_int).sum = 0)) ∧
    ((req.items.map to_nonneg_int).sum = 0 ↔ ∀ v ∈ req.items, to_nonneg_int v = 0) ∧
    ((mock_register_order req newId store).1.isBad = false →
        (mock_register_order req newId store).1 = .registered newId ∧
        ∃ o, getA (mock_register_order req newId store).2 newId = some o ∧
             o.id = newId ∧ o.items = req.items.map to_nonneg_int) ∧
    (getA store newId = none → ∀ k ∈ keysOf store, newId ≠ k) := by
  have hsum0 : (req.items.map to_nonneg_int).sum = 0 ↔ ∀ v ∈ req.items, to_nonneg_int v = 0 := by
    have hnn : ∀ x ∈ req.items.map to_nonneg_int, 0 ≤ x := by
      intro x hx
      rcases List.mem_map.mp hx with ⟨v, _, rfl⟩
      exact to_nonneg_int_nonneg v
    rw [sum_eq_zero_of_nonneg _ hnn]
    constructor
    · intro hall v hv
      exact hall (to_nonneg_int v) (List.mem_map_of_mem _ hv)
    · intro hall x hx
      rcases List.mem_map.mp hx with ⟨v, hv, rfl⟩
      exact hall v hv
  refine ⟨?_, hsum0, ?_, ?_⟩
  · rcases hp : req.point with _ | pv
    · simp [mock_register_order, sanitize_order_payload, hp, MockRegResult.isBad]
    · rcases hd : pv.dest_id with _ | s
      · simp [mock_register_order, sanitize_order_payload, hp, hd, MockRegResult.isBad]
      · by_cases hs : s = ""
        · subst hs
          simp [mock_register_order, sanitize_order_payload, hp, hd, MockRegResult.isBad]
        · by_cases hz : (req.items.map to_nonneg_int).sum = 0
          · simp [mock_register_order, sanitize_order_payload, hp, hd, hs, hz,
              MockRegResult.isBad]
          · simp [mock_register_order, sanitize_order_payload, hp, hd, hs, hz,
              MockRegResult.isBad]
  · intro hgood
    rcases hs : sanitize_order_payload req with m | ok
    · exfalso
      unfold mock_register_order at hgood
      rw [hs] at hgood
      simp [MockRegResult.isBad] at hgood
    · rcases ok with ⟨items', dest⟩
      have h1 : (mock_register_order req newId store).1 = .registered newId := by
        unfold mock_register_order
        rw [hs]
      have h2 : (mock_register_order req newId store).2 =
          setKey store newId { id := newId, items := items', dest_id := dest } := by
        unfold mock_register_order
        rw [hs]
      refine ⟨h1, ⟨{ id := newId, items := items', dest_id := dest }, ?_, rfl, ?_⟩⟩
      · rw [h2]
        exact getA_setKey_self store newId _
      · exact sanitize_ok_items req items' dest hs
  · intro hnone k hk heq
    exact (getA_eq_none_iff store newId).mp hnone (heq ▸ hk)

/-- C2 counterexample: the production server's `register_order` accepts an
all-zero order (present destination, every quantity zero) and stores it —
the claim requires a `ValidationError` exactly in this situation. -/
theorem server_register_allzero_counterexample :
    server_register_order reqAllZero "id0" [] =
      (.registered "id0",
        [("id0", { id := "id0", omurice := 0, hamburg := 0, onigiri := 0,
                   point := { dest_id := some "P2" } })]) ∧
    (SRegResult.registered "id0" ≠ .invalidPoint) ∧
    (SRegResult.registered "id0" ≠ .serverError) :=
  ⟨by decide, by decide, by decide⟩

theorem mock_register_validation_witness :
    ((mock_register_order mockReqEx "u1" []).1.isBad = false) ∧
    ((mock_register_order mockReqEx "u1" []).1 = .registered "u1") ∧
    (getA ([] : List (String × MOrder)) "u1" = none) ∧
    (∀ k ∈ keysOf ([] : List (String × MOrder)), "u1" ≠ k) := by
  refine ⟨by decide, ?_, by decide, ?_⟩
  · exact ((mock_register_validation mockReqEx "u1" []).2.2.1 (by decide)).1
  · exact (mock_register_validation mockReqEx "u1" []).2.2.2 (by decide)

/-- C1 (amended): the mock's `start_delivery` returns 409 `Busy` and starts no
task exactly when the drone status is neither `待機中` (idle) nor `配達完了`
(terminal-completed), given a known order id; in the allowed statuses it
acknowledges and creates the simulation task (whose body serializes runs on
`delivery_lock`).  The production server's handler consults neither the drone
status nor any delivery slot: every request with a non-empty order id is
acknowledged and a new `transport_multi` thread is spawned unconditionally,
so it never returns `Busy` (see the counterexample). -/
theorem start_delivery_exclusivity (s status : String) (orders : List (String × MOrder))
    (sorders : List (String × SOrder)) :
    (s ≠ "" → (getA orders s).isSome → ¬ (status = "待機中" ∨ status = "配達完了") →
        mock_start_delivery (some s) orders status = (.busy, false)) ∧
    (s ≠ "" → (getA orders s).isSome → (status = "待機中" ∨ status = "配達完了") →
        mock_start_delivery (some s) orders status = (.started, true)) ∧
    (s ≠ "" → server_start_delivery status sorders (some s) = (.started, true)) := by
  refine ⟨?_, ?_, ?_⟩
  · intro hne hsome hnot
    have hnn : ¬ ((getA orders s).isNone = true) := fun h =>
      (Option.isSome_iff_ne_none.mp hsome) (Option.isNone_iff_eq_none.mp h)
    simp only [mock_start_delivery]
    rw [if_neg hne, if_neg hnn, if_neg hnot]
  · intro hne hsome hyes
    have hnn : ¬ ((getA orders s).isNone = true) := fun h =>
      (Option.isSome_iff_ne_none.mp hsome) (Option.isNone_iff_eq_none.mp h)
    simp only [mock_start_delivery]
    rw [if_neg hne, if_neg hnn, if_pos hyes]
  · intro hne
    simp only [server_start_delivery]
    rw [if_neg hne]

/-- C1 counterexample: while the drone is mid-delivery (status `配達中`) the
production server still acknowledges a start-delivery request and spawns a
second delivery thread — the claim requires the call to fail with `Busy` and
start nothing. -/
theorem server_start_no_busy_counterexample :
    server_start_delivery "配達中" exOrders (some "o1") = (.started, true) ∧
    (StartResult.started ≠ StartResult.busy) :=
  ⟨by decide, by decide⟩

theorem start_delivery_exclusivity_witness :
    ("o1" ≠ "") ∧ (getA mockStoreEx "o1").isSome ∧
    ¬ ("配達中" = "待機中" ∨ "配達中" = "配達完了") ∧
    mock_start_delivery (some "o1") mockStoreEx "配達中" = (.busy, false) :=
  ⟨by decide, by decide, by decide,
    (start_delivery_exclusivity "o1" "配達中" mockStoreEx []).1
      (by decide) (by decide) (by decide)⟩

/-- C8 (amended): the mock rejects a missing or unknown order id with a 400
(the `NotFound` surfacing) and starts no task; the production server
acknowledges any non-empty order id without consulting the store and spawns a
thread, which — for an unknown id — dies on destination resolution
(`nodes[None]` raising `KeyError`), leaving the store unchanged and no
delivery completed, but the client still receives success (see the
counterexample). -/
theorem start_delivery_unknown_order (oid status : String)
    (orders : List (String × MOrder)) (d : String → String → ℤ)
    (nodes : List (String × NodeData)) (fuel : Nat)
    (sorders : List (String × SOrder)) (eta0 : Option ℤ) :
    (getA orders oid = none →
        mock_start_delivery (some oid) orders status = (.invalidRequest, false)) ∧
    (mock_start_delivery none orders status = (.invalidRequest, false)) ∧
    (getA sorders oid = none →
        transport_multi d nodes fuel oid sorders eta0 =
          some { status := "配達開始", orders := sorders, eta := eta0, ok := false }) := by
  refine ⟨?_, rfl, ?_⟩
  · intro hnone
    simp only [mock_start_delivery]
    by_cases hne : oid = ""
    · rw [if_pos hne]
    · rw [if_neg hne, if_pos (Option.isNone_iff_eq_none.mpr hnone)]
  · intro hnone
    have hdest : get_destination_id sorders oid = none := by
      unfold get_destination_id
      rw [hnone]
    simp only [transport_multi, hdest]

/-- C8 counterexample: with an empty store (so `ghost` is unknown) the
production server replies `delivery started` — not a `NotFound` rejection —
and the spawned run dies with an exception after the pickup leg. -/
theorem server_start_unknown_counterexample :
    server_start_delivery "待機中" [] (some "ghost") = (.started, true) ∧
    (StartResult.started ≠ StartResult.invalidRequest) ∧
    transport_multi exCost exNodes 5 "ghost" [] (none : Option ℤ) =
      some { status := "配達開始", orders := [], eta := none, ok := false } :=
  ⟨by decide, by decide, by decide⟩

theorem start_delivery_unknown_order_witness :
    (getA ([] : List (String × MOrder)) "ghost" = none) ∧
    mock_start_delivery (some "ghost") [] "待機中" = (.invalidRequest, false) :=
  ⟨by decide,
    (start_delivery_unknown_order "ghost" "待機中" [] exCost exNodes 5 [] none).1 (by decide)⟩

/-! ### Shape lemmas for the search state -/

theorem minEntry_mem {α : Type} [LinearOrder α] (m : WithTop α × String)
    (l : List (WithTop α × String)) : minEntry m l ∈ m :: l := by
  induction l generalizing m with
  | nil => simp [minEntry]
  | cons y ys ih =>
    unfold minEntry
    by_cases h : y.1 < m.1 ∨ (y.1 = m.1 ∧ y.2 < m.2)
    · rw [if_pos h]
      exact List.mem_cons_of_mem m (ih y)
    · rw [if_neg h]
      rcases List.mem_cons.mp (ih m) with h1 | h2
      · rw [h1]
        exact List.mem_cons_self _ _
      · exact List.mem_cons_of_mem m (List.mem_cons_of_mem y h2)

theorem popMin_spec {α : Type} [LinearOrder α] [DecidableEq α]
    {l : List (WithTop α × String)} {c : WithTop α × String}
    {rest : List (WithTop α × String)} (h : popMin l = some (c, rest)) :
    c ∈ l ∧ (∀ e ∈ rest, e ∈ l) ∧ rest.length + 1 = l.length := by
  rcases l with _ | ⟨x, xs⟩
  · exact absurd h (by simp [popMin])
  · unfold popMin at h
    rcases Option.some_inj.mp h with heq
    have hc : c = minEntry x xs := (congrArg Prod.fst heq).symm
    have hrest : rest = (x :: xs).erase (minEntry x xs) := (congrArg Prod.snd heq).symm
    have hmem : minEntry x xs ∈ x :: xs := minEntry_mem x xs
    refine ⟨hc ▸ hmem, ?_, ?_⟩
    · intro e he
      rw [hrest] at he
      exact List.mem_of_mem_erase he
    · rw [hrest, List.length_erase_of_mem hmem]
      have : 1 ≤ (x :: xs).length := by simp
      omega

/-- Case analysis for one relaxation step: either nothing changes (absent
neighbor or no strict improvement), or the successor map, `g_score` and heap
are updated as in the source. -/
theorem relaxOne_cases {α : Type} [LinearOrderedAddCommMonoid α]
    (d : String → String → α) (nodes : List (String × NodeData)) (goal current : String)
    (st : AState α) (nb : String) :
    (relaxOne d nodes goal current st nb = st) ∨
    ((getA nodes nb).isSome ∧ st.g current + (d current nb : α) < st.g nb ∧
      relaxOne d nodes goal current st nb =
        { opn := st.opn ++ [(st.g current + (d current nb : α) + (d nb goal : α), nb)],
          came := fun m => if m = nb then some current else st.came m,
          g := fun m => if m = nb then st.g current + (d current nb : α) else st.g m }) := by
  unfold relaxOne
  rcases h : getA nodes nb with _ | nd
  · left
    rfl
  · by_cases hlt : st.g current + (d current nb : α) < st.g nb
    · right
      refine ⟨rfl, hlt, ?_⟩
      simp only [if_pos hlt]
    · left
      simp only [if_neg hlt]

theorem coe_d_nonneg {α : Type} [LinearOrderedAddCommMonoid α] {d : String → String → α}
    (hd : ∀ a b, 0 ≤ d a b) (a b : String) : (0 : WithTop α) ≤ (d a b : α) := by
  rw [← WithTop.coe_zero]
  exact WithTop.coe_le_coe.mpr (hd a b)

theorem relaxOne_g_ne_top {α : Type} [LinearOrderedAddCommMonoid α]
    (d : String → String → α) (nodes : List (String × NodeData)) (goal current : String)
    (st : AState α) (nb m : String) (h : st.g m ≠ ⊤) :
    (relaxOne d nodes goal current st nb).g m ≠ ⊤ := by
  rcases relaxOne_cases d nodes goal current st nb with heq | ⟨_, hlt, heq⟩
  · rw [heq]
    exact h
  · rw [heq]
    by_cases hm : m = nb
    · simp only [hm, if_pos rfl]
      exact ne_top_of_lt hlt
    · simp only [if_neg hm]
      exact h

theorem relaxOne_inv {α : Type} [LinearOrderedAddCommMonoid α]
    {d : String → String → α} (hd : ∀ a b, 0 ≤ d a b)
    {nodes : List (String × NodeData)} {start : String} (goal : String) {current : String}
    {st : AState α} (hInv : AInv d nodes start st) {ndc : NodeData}
    (hcur : getA nodes current = some ndc) (hgc : st.g current ≠ ⊤)
    {nb : String} (hnb : nb ∈ ndc.connect) :
    AInv d nodes start (relaxOne d nodes goal current st nb) := by
  rcases relaxOne_cases d nodes goal current st nb with heq | ⟨hsome, hlt, heq⟩
  · rw [heq]
    exact hInv
  · have hopn : (relaxOne d nodes goal current st nb).opn =
        st.opn ++ [(st.g current + (d current nb : α) + (d nb goal : α), nb)] := by
      rw [heq]
    have hcame : ∀ m, (relaxOne d nodes goal current st nb).came m =
        if m = nb then some current else st.came m := by
      intro m
      rw [heq]
    have hg : ∀ m, (relaxOne d nodes goal current st nb).g m =
        if m = nb then st.g current + (d current nb : α) else st.g m := by
      intro m
      rw [heq]
    have ht0 : (0 : WithTop α) ≤ st.g current + (d current nb : α) :=
      add_nonneg (hInv.g_nonneg current) (coe_d_nonneg hd current nb)
    have htne : st.g current + (d current nb : α) ≠ ⊤ := ne_top_of_lt hlt
    have hnbs : nb ≠ start := by
      intro hns
      have h0 : st.g nb = 0 := by rw [hns, hInv.g_start]
      rw [h0] at hlt
      exact absurd hlt (not_lt.mpr ht0)
    have hgne : ∀ m, st.g m ≠ ⊤ → (relaxOne d nodes goal current st nb).g m ≠ ⊤ := by
      intro m hm
      rw [hg m]
      by_cases h : m = nb
      · rw [if_pos h]
        exact htne
      · rw [if_neg h]
        exact hm
    constructor
    · intro n
      rw [hg n]
      by_cases h : n = nb
      · rw [if_pos h]
        exact ht0
      · rw [if_neg h]
        exact hInv.g_nonneg n
    · rw [hg start, if_neg (fun h => hnbs h.symm)]
      exact hInv.g_start
    · rw [hcame start, if_neg (fun h => hnbs h.symm)]
      exact hInv.came_start
    · intro n c hc
      rw [hcame n] at hc
      by_cases h : n = nb
      · rw [if_pos h] at hc
        rcases Option.some_inj.mp hc with rfl
        subst h
        exact ⟨⟨ndc, hcur, hnb⟩, hsome, hgne current hgc, by rw [hg n, if_pos rfl]; exact htne⟩
      · rw [if_neg h] at hc
        rcases hInv.came_edge n c hc with ⟨hadj, hns, hgcc, hgn⟩
        exact ⟨hadj, hns, hgne c hgcc, hgne n hgn⟩
    · intro n hne hns
      rw [hcame n]
      by_cases h : n = nb
      · rw [if_pos h]
        rfl
      · rw [hg n, if_neg h] at hne
        rw [if_neg h]
        exact hInv.g_parent n hne hns
    · intro e he
      rw [hopn] at he
      rcases List.mem_append.mp he with hold | hnew
      · rcases hInv.opn_ok e hold with ⟨hes, hee⟩
        exact ⟨hes, hgne e.2 hee⟩
      · rcases List.mem_singleton.mp hnew with rfl
        exact ⟨hsome, by rw [hg nb, if_pos rfl]; exact htne⟩
    · intro n hne
      by_cases h : n = nb
      · subst h
        exact Reach.step (hInv.g_reach current hgc) hcur hnb hsome
      · rw [hg n, if_neg h] at hne
        exact hInv.g_reach n hne

theorem relaxList_inv {α : Type} [LinearOrderedAddCommMonoid α]
    {d : String → String → α} (hd : ∀ a b, 0 ≤ d a b)
    {nodes : List (String × NodeData)} {start : String} (goal : String) {current : String}
    {ndc : NodeData} (hcur : getA nodes current = some ndc) :
    ∀ (l : List String), (∀ x ∈ l, x ∈ ndc.connect) → ∀ (st : AState α),
      AInv d nodes start st → st.g current ≠ ⊤ →
      AInv d nodes start (relaxList d nodes goal current l st) := by
  intro l
  induction l with
  | nil =>
    intro _ st hInv _
    exact hInv
  | cons x xs ih =>
    intro hsub st hInv hgc
    show AInv d nodes start (xs.foldl (relaxOne d nodes goal current)
      (relaxOne d nodes goal current st x))
    exact ih (fun y hy => hsub y (List.mem_cons_of_mem x hy))
      (relaxOne d nodes goal current st x)
      (relaxOne_inv hd goal hInv hcur hgc (hsub x (List.mem_cons_self x xs)))
      (relaxOne_g_ne_top d nodes goal current st x current hgc)

theorem reconstructPath_ok {α : Type} [LinearOrderedAddCommMonoid α]
    {d : String → String → α} {nodes : List (String × NodeData)} {start : String}
    {st : AState α} (hInv : AInv d nodes start st) :
    ∀ (fuel : Nat) (n : String) (p : List String), st.g n ≠ ⊤ →
      reconstructPath st.came fuel n = some p →
      p.head? = some start ∧ p.getLast? = some n ∧ List.Chain' (Adjacent nodes) p := by
  intro fuel
  induction fuel with
  | zero =>
    intro n p _ h
    exact absurd h (by simp [reconstructPath])
  | succ fuel ih =>
    intro n p hgn hrec
    unfold reconstructPath at hrec
    rcases hc : st.came n with _ | c
    · simp only [hc] at hrec
      rcases Option.some_inj.mp hrec with rfl
      have hns : n = start := by
        by_contra hne
        have := hInv.g_parent n hgn hne
        rw [hc] at this
        exact absurd this (by simp)
      exact ⟨by rw [hns]; rfl, rfl, List.chain'_singleton n⟩
    · simp only [hc] at hrec
      rcases hr : reconstructPath st.came fuel c with _ | q
      · simp only [hr] at hrec
        exact absurd hrec (by simp)
      · simp only [hr] at hrec
        rcases Option.some_inj.mp hrec with rfl
        rcases hInv.came_edge n c hc with ⟨hadj, _, hgc, _⟩
        rcases ih c q hgc hr with ⟨ih1, ih2, ih3⟩
        refine ⟨?_, ?_, ?_⟩
        · rcases q with _ | ⟨x, xs⟩
          · exact absurd ih1 (by simp)
          · simpa using ih1
        · simp [List.getLast?_concat]
        · refine List.chain'_append.mpr ⟨ih3, List.chain'_singleton n, ?_⟩
          intro x hx y hy
          have hxc : x = c := by
            rw [ih2] at hx
            exact (Option.mem_some_iff.mp hx).symm
          have hyn : y = n := by
            simp only [List.head?_cons, Option.mem_some_iff] at hy
            exact hy.symm
          rw [hxc, hyn]
          exact hadj

theorem astarLoop_path {α : Type} [LinearOrderedAddCommMonoid α] [DecidableEq α]
    {d : String → String → α} (hd : ∀ a b, 0 ≤ d a b)
    {nodes : List (String × NodeData)} {start goal : String} :
    ∀ (fuel : Nat) (st : AState α) (p : List String), AInv d nodes start st →
      astarLoop d nodes goal fuel st = .path p →
      p.head? = some start ∧ p.getLast? = some goal ∧ List.Chain' (Adjacent nodes) p := by
  intro fuel
  induction fuel with
  | zero =>
    intro st p _ h
    exact absurd h (by simp [astarLoop])
  | succ fuel ih =>
    intro st p hInv hrun
    unfold astarLoop at hrun
    rcases hpop : popMin st.opn with _ | ⟨c, rest⟩
    · simp only [hpop] at hrun
      exact absurd hrun (by simp)
    · simp only [hpop] at hrun
      rcases popMin_spec hpop with ⟨hmem, hsub, _⟩
      by_cases hg : c.2 = goal
      · rw [if_pos hg] at hrun
        rcases hrec : reconstructPath st.came (fuel + 1) c.2 with _ | q
        · simp only [hrec] at hrun
          exact absurd hrun (by simp)
        · simp only [hrec] at hrun
          have hgoal_ne : st.g c.2 ≠ ⊤ := (hInv.opn_ok c hmem).2
          rcases reconstructPath_ok hInv (fuel + 1) c.2 q hgoal_ne hrec with ⟨h1, h2, h3⟩
          rcases AStarResult.path.inj hrun with rfl
          exact ⟨h1, hg ▸ h2, h3⟩
      · rw [if_neg hg] at hrun
        rcases hcur : getA nodes c.2 with _ | nd
        · simp only [hcur] at hrun
          exact absurd hrun (by simp)
        · simp only [hcur] at hrun
          have hInv' : AInv d nodes start { st with opn := rest } :=
            { hInv with opn_ok := fun e he => hInv.opn_ok e (hsub e he) }
          exact ih _ p
            (relaxList_inv hd goal hcur nd.connect (fun x hx => hx) _ hInv'
              (hInv.opn_ok c hmem).2) hrun

theorem astarInit_inv {α : Type} [LinearOrderedAddCommMonoid α]
    (d : String → String → α) (nodes : List (String × NodeData)) (start : String)
    (hs : (getA nodes start).isSome) :
    AInv d nodes start (astarInit start) := by
  constructor
  · intro n
    show (0 : WithTop α) ≤ if n = start then ((0 : α) : WithTop α) else ⊤
    by_cases h : n = start
    · rw [if_pos h, WithTop.coe_zero]
    · rw [if_neg h]
      exact le_top
  · show (if start = start then ((0 : α) : WithTop α) else ⊤) = 0
    rw [if_pos rfl, WithTop.coe_zero]
  · rfl
  · intro n c h
    exact absurd h (by simp [astarInit])
  · intro n hne hns
    exfalso
    apply hne
    show (if n = start then ((0 : α) : WithTop α) else ⊤) = ⊤
    rw [if_neg hns]
  · intro e he
    rcases List.mem_singleton.mp he with rfl
    refine ⟨hs, ?_⟩
    show (if start = start then ((0 : α) : WithTop α) else ⊤) ≠ ⊤
    rw [if_pos rfl]
    exact WithTop.coe_ne_top
  · intro n hne
    have hns : n = start := by
      by_contra h
      apply hne
      show (if n = start then ((0 : α) : WithTop α) else ⊤) = ⊤
      rw [if_neg h]
    rw [hns]
    exact Reach.refl

/-- C3: for every graph, nonnegative edge cost and start/goal ids present in
the graph, when `astar` returns a path its first element is the start id, its
last element is the goal id, and every consecutive pair is graph-adjacent
(the second element is listed among the first's neighbors). -/
theorem astar_path_valid {α : Type} [LinearOrderedAddCommMonoid α] [DecidableEq α]
    (d : String → String → α) (nodes : List (String × NodeData)) (start goal : String)
    (fuel : Nat) (p : List String) (hd : ∀ a b, 0 ≤ d a b)
    (hs : (getA nodes start).isSome) (hg : (getA nodes goal).isSome)
    (hrun : astar d nodes start goal fuel = .path p) :
    p.head? = some start ∧ p.getLast? = some goal ∧ List.Chain' (Adjacent nodes) p := by
  unfold astar at hrun
  rcases Option.isSome_iff_exists.mp hs with ⟨nd1, h1⟩
  rcases Option.isSome_iff_exists.mp hg with ⟨nd2, h2⟩
  rw [h1, h2] at hrun
  exact astarLoop_path hd fuel (astarInit start) p (astarInit_inv d nodes start hs) hrun

theorem exCost_nonneg : ∀ a b, (0 : ℤ) ≤ exCost a b := by
  intro a b
  unfold exCost
  split_ifs <;> decide

theorem astar_path_valid_witness :
    (astar exCost exNodes "P0" "P2" 20 = AStarResult.path ["P0", "P1", "P2"]) ∧
    (["P0", "P1", "P2"].head? = some "P0" ∧
     ["P0", "P1", "P2"].getLast? = some "P2" ∧
     List.Chain' (Adjacent exNodes) ["P0", "P1", "P2"]) :=
  ⟨by decide,
    astar_path_valid exCost exNodes "P0" "P2" 20 ["P0", "P1", "P2"]
      exCost_nonneg (by decide) (by decide) (by decide)⟩

theorem getA_delKey_self {β : Type} (s : List (String × β)) (k : String) :
    getA (delKey s k) k = none := by
  rw [getA_eq_none_iff]
  intro hk
  rcases List.mem_map.mp hk with ⟨kv, hkv, hfst⟩
  exact ((mem_delKey s k kv).mp hkv).2 hfst

/-- C7: when the planner finds a path, the delivery run completes the order —
its id is gone from the store and from `list()` — and the final phase is
`待機中`; when the planner reports no path, the run aborts with the store
untouched (the order id still present) and the phase reset to `待機中`. -/
theorem transport_outcome {α : Type} [LinearOrderedAddCommMonoid α] [DecidableEq α]
    (d : String → String → α) (nodes : List (String × NodeData)) (fuel : Nat)
    (oid : String) (orders : List (String × SOrder)) (eta0 : Option α)
    (goal : String) (hs : StoreInv orders)
    (hdest : get_destination_id orders oid = some goal) :
    (∀ p out, astar d nodes "P0" goal fuel = .path p →
        transport_multi d nodes fuel oid orders eta0 = some out →
        out.orders = complete_order orders oid ∧
        (∀ o ∈ list_orders out.orders, o.id ≠ oid) ∧
        getA out.orders oid = none ∧
        out.status = "待機中") ∧
    (∀ out, astar d nodes "P0" goal fuel = .noPath →
        transport_multi d nodes fuel oid orders eta0 = some out →
        out.orders = orders ∧ out.status = "待機中") := by
  constructor
  · intro p out hpath htr
    simp only [transport_multi, hdest, hpath] at htr
    rcases Option.some_inj.mp htr with rfl
    refine ⟨rfl, ?_, getA_delKey_self orders oid, rfl⟩
    intro o ho
    rcases List.mem_map.mp ho with ⟨kv, hkv, rfl⟩
    rcases (mem_delKey orders oid kv).mp hkv with ⟨hmem, hne⟩
    rw [hs kv hmem]
    exact hne
  · intro out hnopath htr
    simp only [transport_multi, hdest, hnopath] at htr
    rcases Option.some_inj.mp htr with rfl
    exact ⟨rfl, rfl⟩

theorem transport_outcome_witness :
    StoreInv exOrders ∧
    get_destination_id exOrders "o1" = some "P2" ∧
    transport_multi exCost exNodes 20 "o1" exOrders (some 5) =
      some { status := "待機中", orders := [], eta := none, ok := true } ∧
    getA ({ status := "待機中", orders := [], eta := (none : Option ℤ),
            ok := true } : TransportOut ℤ).orders "o1" = none ∧
    astar exCost exNodesSplit "P0" "P9" 20 = AStarResult.noPath ∧
    (({ status := "待機中", orders := exOrdersSplit, eta := some 5,
        ok := true } : TransportOut ℤ).orders = exOrdersSplit ∧
     ({ status := "待機中", orders := exOrdersSplit, eta := (some 5 : Option ℤ),
        ok := true } : TransportOut ℤ).status = "待機中") :=
  ⟨by unfold StoreInv; decide, by decide, by decide,
    ((transport_outcome exCost exNodes 20 "o1" exOrders (some 5) "P2"
        (by unfold StoreInv; decide) (by decide)).1 ["P0", "P1", "P2"] _
        (by decide) (by decide)).2.2.1,
    by decide,
    (transport_outcome exCost exNodesSplit 20 "o2" exOrdersSplit (some 5) "P9"
        (by unfold StoreInv; decide) (by decide)).2 _ (by decide) (by decide)⟩

/-! ### Termination of the search (claim C5)

Every finite `g_score` entry is the cost of a duplicate-free start-to-node
list (`GoodPath`); each strict improvement moves the entry to a smaller value
inside the finite set of such costs, so the total number of heap pushes is
bounded and the loop always exhausts its frontier when the goal is never
popped. -/

theorem pathSum_nonneg {α : Type} [LinearOrderedAddCommMonoid α]
    {d : String → String → α} (hd : ∀ a b, 0 ≤ d a b) :
    ∀ p : List String, 0 ≤ pathSum d p := by
  intro p
  induction p with
  | nil => exact le_of_eq rfl
  | cons a rest ih =>
    rcases rest with _ | ⟨b, rest'⟩
    · exact le_of_eq rfl
    · show (0 : α) ≤ d a b + pathSum d (b :: rest')
      exact add_nonneg (hd a b) ih

theorem pathSum_concat {α : Type} [LinearOrderedAddCommMonoid α]
    (d : String → String → α) :
    ∀ (p : List String) (c b : String), p.getLast? = some c →
      pathSum d (p ++ [b]) = pathSum d p + d c b := by
  intro p
  induction p with
  | nil =>
    intro c b h
    exact absurd h (by simp)
  | cons a rest ih =>
    intro c b h
    rcases rest with _ | ⟨x, xs⟩
    · have hac : a = c := by simpa using h
      subst hac
      show d a b + pathSum d [b] = pathSum d [a] + d a b
      show d a b + 0 = 0 + d a b
      rw [add_zero, zero_add]
    · have hlast : (x :: xs).getLast? = some c := by
        simpa [List.getLast?_cons_cons] using h
      show d a x + pathSum d ((x :: xs) ++ [b]) = (d a x + pathSum d (x :: xs)) + d c b
      rw [ih c b hlast, add_assoc]

theorem pathSum_take_le {α : Type} [LinearOrderedAddCommMonoid α]
    {d : String → String → α} (hd : ∀ a b, 0 ≤ d a b) :
    ∀ (p : List String) (i : Nat), pathSum d (p.take i) ≤ pathSum d p := by
  intro p
  induction p with
  | nil =>
    intro i
    rw [List.take_nil]
  | cons a rest ih =>
    intro i
    rcases i with _ | j
    · rw [List.take_zero]
      exact pathSum_nonneg hd _
    · rw [List.take_succ_cons]
      rcases rest with _ | ⟨b, rest'⟩
      · rw [List.take_nil]
      · rcases j with _ | k
        · rw [List.take_zero]
          show (0 : α) ≤ d a b + pathSum d (b :: rest')
          exact add_nonneg (hd a b) (pathSum_nonneg hd _)
        · rw [List.take_succ_cons]
          show d a b + pathSum d (b :: List.take k rest') ≤ d a b + pathSum d (b :: rest')
          have hih := ih (k + 1)
          rw [List.take_succ_cons] at hih
          exact add_le_add_left hih (d a b)

theorem relaxOne_g_le {α : Type} [LinearOrderedAddCommMonoid α]
    (d : String → String → α) (nodes : List (String × NodeData)) (goal current : String)
    (st : AState α) (nb m : String) :
    (relaxOne d nodes goal current st nb).g m ≤ st.g m := by
  rcases relaxOne_cases d nodes goal current st nb with heq | ⟨_, hlt, heq⟩
  · rw [heq]
  · have hg : (relaxOne d nodes goal current st nb).g m =
        if m = nb then st.g current + (d current nb : α) else st.g m := by rw [heq]
    rw [hg]
    by_cases h : m = nb
    · rw [if_pos h, h]
      exact le_of_lt hlt
    · rw [if_neg h]

theorem relaxOne_pathInv {α : Type} [LinearOrderedAddCommMonoid α]
    {d : String → String → α} (hd : ∀ a b, 0 ≤ d a b)
    {nodes : List (String × NodeData)} {start : String} (goal : String) {current : String}
    {st : AState α} (hPI : PathInv d nodes start st.g) {ndc : NodeData}
    (hcur : getA nodes current = some ndc) (hgc : st.g current ≠ ⊤)
    {nb : String} (hnb : nb ∈ ndc.connect) :
    PathInv d nodes start (relaxOne d nodes goal current st nb).g := by
  rcases relaxOne_cases d nodes goal current st nb with heq | ⟨hsome, hlt, heq⟩
  · rw [heq]
    exact hPI
  · have hg : ∀ m, (relaxOne d nodes goal current st nb).g m =
        if m = nb then st.g current + (d current nb : α) else st.g m := by
      intro m
      rw [heq]
    have hgle : ∀ m, (relaxOne d nodes goal current st nb).g m ≤ st.g m :=
      relaxOne_g_le d nodes goal current st nb
    intro n hne
    rw [hg n] at hne
    by_cases h : n = nb
    · subst h
      rcases hPI current hgc with ⟨pc, hpc⟩
      rw [if_pos rfl] at hne
      have hnotin : n ∉ pc := by
        intro hmem
        rcases List.mem_iff_get.mp hmem with ⟨i, hi⟩
        have hb := hpc.takeBound i.1 i.2
        rw [hi] at hb
        have h1 : ((pathSum d (pc.take (i.1 + 1)) : α) : WithTop α)
            ≤ ((pathSum d pc : α) : WithTop α) :=
          WithTop.coe_le_coe.mpr (pathSum_take_le hd pc (i.1 + 1))
        have h3 : st.g current ≤ st.g current + (d current n : α) :=
          le_add_of_nonneg_right (coe_d_nonneg hd current n)
        have : st.g n < st.g n :=
          lt_of_le_of_lt (le_trans (le_trans hb h1) (hpc.sumEq ▸ h3)) hlt
        exact absurd this (lt_irrefl _)
      refine ⟨pc ++ [n], ?_, ?_, ?_, ?_, ?_, ?_⟩
      · rcases pc with _ | ⟨x, xs⟩
        · exact absurd hpc.headEq (by simp)
        · simpa using hpc.headEq
      · rw [List.getLast?_concat]
      · rw [List.nodup_append]
        exact ⟨hpc.nodup, List.nodup_singleton n,
          fun a ha hb => hnotin ((List.mem_singleton.mp hb) ▸ ha)⟩
      · intro x hx
        rcases List.mem_append.mp hx with hx1 | hx2
        · exact hpc.inKeys x hx1
        · rcases List.mem_singleton.mp hx2 with rfl
          exact hsome
      · rw [hg n, if_pos rfl, pathSum_concat d pc current n hpc.lastEq,
          WithTop.coe_add, hpc.sumEq]
      · intro i hilen
        rw [List.length_append, List.length_singleton] at hilen
        by_cases hi : i < pc.length
        · have hget : (pc ++ [n]).get ⟨i, by
              rw [List.length_append, List.length_singleton]; omega⟩ = pc.get ⟨i, hi⟩ :=
            List.get_append i hi
          rw [hget]
          have htake : (pc ++ [n]).take (i + 1) = pc.take (i + 1) :=
            List.take_append_of_le_length (by omega)
          rw [htake]
          exact le_trans (hgle (pc.get ⟨i, hi⟩)) (hpc.takeBound i hi)
        · have hieq : i = pc.length := by omega
          subst hieq
          have hget : (pc ++ [n]).get ⟨pc.length, by
              rw [List.length_append, List.length_singleton]; omega⟩ = n := by
            rw [List.get_append_right] <;> simp
          rw [hget]
          have htake : (pc ++ [n]).take (pc.length + 1) = pc ++ [n] :=
            List.take_of_length_le (by rw [List.length_append, List.length_singleton])
          rw [htake]
          rw [hg n, if_pos rfl, pathSum_concat d pc current n hpc.lastEq,
            WithTop.coe_add, hpc.sumEq]
    · rw [if_neg h] at hne
      rcases hPI n hne with ⟨pn, hpn⟩
      refine ⟨pn, hpn.headEq, hpn.lastEq, hpn.nodup, hpn.inKeys, ?_, ?_⟩
      · rw [hg n, if_neg h]
        exact hpn.sumEq
      · intro i hilen
        exact le_trans (hgle (pn.get ⟨i, hilen⟩)) (hpn.takeBound i hilen)

theorem isSome_getA_mem {β : Type} (s : List (String × β)) (k : String)
    (h : (getA s k).isSome) : k ∈ keysOf s := by
  by_contra hk
  rw [(getA_eq_none_iff s k).mpr hk] at h
  simp at h

theorem pathSum_mem_sumsFin {α : Type} [LinearOrderedAddCommMonoid α] [DecidableEq α]
    (d : String → String → α) {keys : List String} {p : List String}
    (hnd : p.Nodup) (hsub : ∀ x ∈ p, x ∈ keys) :
    pathSum d p ∈ sumsFin d keys := by
  rcases List.subperm_of_subset hnd hsub with ⟨l, hperm, hsl⟩
  have h1 : l ∈ keys.sublists := List.mem_sublists.mpr hsl
  have h2 : p ∈ l.permutations := List.mem_permutations.mpr hperm.symm
  have h3 : p ∈ nodupLists keys := by
    unfold nodupLists
    exact List.mem_flatten.mpr ⟨l.permutations, List.mem_map_of_mem _ h1, h2⟩
  exact List.mem_toFinset.mpr (List.mem_map_of_mem _ h3)

theorem countBelow_decrease {α : Type} [LinearOrderedAddCommMonoid α] [DecidableEq α]
    {d : String → String → α} {keys : List String} {g g' : String → WithTop α} {n : String}
    {v : α} (hvmem : v ∈ sumsFin d keys) (hvlt : ((v : α) : WithTop α) < g n)
    (hg' : g' n = ((v : α) : WithTop α)) :
    countBelow d keys g' n < countBelow d keys g n := by
  apply Finset.card_lt_card
  rw [Finset.ssubset_iff_of_subset]
  · exact ⟨v, Finset.mem_filter.mpr ⟨hvmem, hvlt⟩,
      fun hin => absurd (hg' ▸ (Finset.mem_filter.mp hin).2) (lt_irrefl _)⟩
  · intro u hu
    rcases Finset.mem_filter.mp hu with ⟨hus, hult⟩
    rw [hg'] at hult
    exact Finset.mem_filter.mpr ⟨hus, lt_trans hult hvlt⟩

theorem list_sum_lt_of_le_of_lt {f f' : String → Nat} :
    ∀ (l : List String), (∀ x ∈ l, f' x ≤ f x) → ∀ nb ∈ l, f' nb < f nb →
      (l.map f').sum < (l.map f).sum := by
  intro l
  induction l with
  | nil =>
    intro _ nb hnb
    exact absurd hnb (List.not_mem_nil nb)
  | cons a rest ih =>
    intro hle nb hnb hlt
    rw [List.map_cons, List.map_cons, List.sum_cons, List.sum_cons]
    rcases List.mem_cons.mp hnb with rfl | hmem
    · have hrest : (rest.map f').sum ≤ (rest.map f).sum :=
        List.sum_le_sum (fun x hx => hle x (List.mem_cons_of_mem _ hx))
      omega
    · have ha : f' a ≤ f a := hle a (List.mem_cons_self _ _)
      have hrest := ih (fun x hx => hle x (List.mem_cons_of_mem _ hx)) nb hmem hlt
      omega

theorem relaxOne_measure {α : Type} [LinearOrderedAddCommMonoid α] [DecidableEq α]
    {d : String → String → α} (hd : ∀ a b, 0 ≤ d a b)
    {nodes : List (String × NodeData)} {start : String} (goal : String) {current : String}
    {st : AState α} (hInv : AInv d nodes start st) (hPI : PathInv d nodes start st.g)
    {ndc : NodeData} (hcur : getA nodes current = some ndc) (hgc : st.g current ≠ ⊤)
    {nb : String} (hnb : nb ∈ ndc.connect) :
    measureMu d nodes (relaxOne d nodes goal current st nb) ≤ measureMu d nodes st := by
  rcases relaxOne_cases d nodes goal current st nb with heq | ⟨hsome, hlt, heq⟩
  · rw [heq]
  · have hg : ∀ m, (relaxOne d nodes goal current st nb).g m =
        if m = nb then st.g current + (d current nb : α) else st.g m := by
      intro m
      rw [heq]
    have hopn : (relaxOne d nodes goal current st nb).opn =
        st.opn ++ [(st.g current + (d current nb : α) + (d nb goal : α), nb)] := by
      rw [heq]
    have hne' : (relaxOne d nodes goal current st nb).g nb ≠ ⊤ := by
      rw [hg nb, if_pos rfl]
      exact ne_top_of_lt hlt
    rcases relaxOne_pathInv hd goal hPI hcur hgc hnb nb hne' with ⟨p, hp⟩
    have hvmem : pathSum d p ∈ sumsFin d (keysOf nodes) :=
      pathSum_mem_sumsFin d hp.nodup
        (fun x hx => isSome_getA_mem nodes x (hp.inKeys x hx))
    have hveq : (relaxOne d nodes goal current st nb).g nb =
        ((pathSum d p : α) : WithTop α) := hp.sumEq.symm
    have hvlt : ((pathSum d p : α) : WithTop α) < st.g nb := by
      rw [← hveq, hg nb, if_pos rfl]
      exact hlt
    have hcb : countBelow d (keysOf nodes) (relaxOne d nodes goal current st nb).g nb <
        countBelow d (keysOf nodes) st.g nb :=
      countBelow_decrease hvmem hvlt hveq
    have hcble : ∀ m, countBelow d (keysOf nodes) (relaxOne d nodes goal current st nb).g m ≤
        countBelow d (keysOf nodes) st.g m := by
      intro m
      by_cases h : m = nb
      · rw [h]
        exact le_of_lt hcb
      · unfold countBelow
        rw [hg m, if_neg h]
    have hC : measureC d (keysOf nodes) (relaxOne d nodes goal current st nb).g <
        measureC d (keysOf nodes) st.g :=
      list_sum_lt_of_le_of_lt (keysOf nodes) (fun x _ => hcble x) nb
        (isSome_getA_mem nodes nb hsome) hcb
    unfold measureMu
    rw [hopn, List.length_append, List.length_singleton]
    omega

theorem relaxList_pathInv {α : Type} [LinearOrderedAddCommMonoid α]
    {d : String → String → α} (hd : ∀ a b, 0 ≤ d a b)
    {nodes : List (String × NodeData)} {start : String} (goal : String) {current : String}
    {ndc : NodeData} (hcur : getA nodes current = some ndc) :
    ∀ (l : List String), (∀ x ∈ l, x ∈ ndc.connect) → ∀ (st : AState α),
      PathInv d nodes start st.g → st.g current ≠ ⊤ →
      PathInv d nodes start (relaxList d nodes goal current l st).g := by
  intro l
  induction l with
  | nil =>
    intro _ st hPI _
    exact hPI
  | cons x xs ih =>
    intro hsub st hPI hgc
    show PathInv d nodes start
      ((xs.foldl (relaxOne d nodes goal current) (relaxOne d nodes goal current st x))).g
    exact ih (fun y hy => hsub y (List.mem_cons_of_mem x hy))
      (relaxOne d nodes goal current st x)
      (relaxOne_pathInv hd goal hPI hcur hgc (hsub x (List.mem_cons_self x xs)))
      (relaxOne_g_ne_top d nodes goal current st x current hgc)

theorem relaxList_measure {α : Type} [LinearOrderedAddCommMonoid α] [DecidableEq α]
    {d : String → String → α} (hd : ∀ a b, 0 ≤ d a b)
    {nodes : List (String × NodeData)} {start : String} (goal : String) {current : String}
    {ndc : NodeData} (hcur : getA nodes current = some ndc) :
    ∀ (l : List String), (∀ x ∈ l, x ∈ ndc.connect) → ∀ (st : AState α),
      AInv d nodes start st → PathInv d nodes start st.g → st.g current ≠ ⊤ →
      measureMu d nodes (relaxList d nodes goal current l st) ≤ measureMu d nodes st := by
  intro l
  induction l with
  | nil =>
    intro _ st _ _ _
    exact le_refl _
  | cons x xs ih =>
    intro hsub st hInv hPI hgc
    have hx := hsub x (List.mem_cons_self x xs)
    have h1 := relaxOne_measure hd goal hInv hPI hcur hgc hx
    have h2 := ih (fun y hy => hsub y (List.mem_cons_of_mem x hy))
      (relaxOne d nodes goal current st x)
      (relaxOne_inv hd goal hInv hcur hgc hx)
      (relaxOne_pathInv hd goal hPI hcur hgc hx)
      (relaxOne_g_ne_top d nodes goal current st x current hgc)
    exact le_trans h2 h1

theorem astarLoop_step {α : Type} [LinearOrderedAddCommMonoid α] [DecidableEq α]
    (d : String → String → α) (nodes : List (String × NodeData)) (goal : String)
    (fuel : Nat) (st : AState α) {c : WithTop α × String}
    {rest : List (WithTop α × String)} (hpop : popMin st.opn = some (c, rest)) :
    astarLoop d nodes goal (fuel + 1) st =
      if c.2 = goal then
        match reconstructPath st.came (fuel + 1) c.2 with
        | none => .fuelOut
        | some p => .path p
      else
        match getA nodes c.2 with
        | none => .exn
        | some nd =>
          astarLoop d nodes goal fuel
            (relaxList d nodes goal c.2 nd.connect { st with opn := rest }) := by
  conv_lhs => rw [astarLoop]
  rw [hpop]

theorem astarLoop_empty {α : Type} [LinearOrderedAddCommMonoid α] [DecidableEq α]
    (d : String → String → α) (nodes : List (String × NodeData)) (goal : String)
    (fuel : Nat) (st : AState α) (hpop : popMin st.opn = none) :
    astarLoop d nodes goal (fuel + 1) st = .noPath := by
  unfold astarLoop
  rw [hpop]

theorem astarLoop_safe {α : Type} [LinearOrderedAddCommMonoid α] [DecidableEq α]
    {d : String → String → α} (hd : ∀ a b, 0 ≤ d a b)
    {nodes : List (String × NodeData)} {start goal : String} :
    ∀ (fuel : Nat) (st : AState α), AInv d nodes start st →
      astarLoop d nodes goal fuel st ≠ .exn ∧
      (∀ p, astarLoop d nodes goal fuel st = .path p → Reach nodes start goal) := by
  intro fuel
  induction fuel with
  | zero =>
    intro st _
    exact ⟨by simp [astarLoop], fun p h => absurd h (by simp [astarLoop])⟩
  | succ fuel ih =>
    intro st hInv
    rcases hpop : popMin st.opn with _ | ⟨c, rest⟩
    · rw [astarLoop_empty d nodes goal fuel st hpop]
      exact ⟨by simp, fun p h => absurd h (by simp)⟩
    · rw [astarLoop_step d nodes goal fuel st hpop]
      rcases popMin_spec hpop with ⟨hmem, hsub, _⟩
      by_cases hg : c.2 = goal
      · rw [if_pos hg]
        have hreach : Reach nodes start goal :=
          hg ▸ hInv.g_reach c.2 (hInv.opn_ok c hmem).2
        rcases hrec : reconstructPath st.came (fuel + 1) c.2 with _ | q
        · simp only [hrec]
          exact ⟨by simp, fun p h => absurd h (by simp)⟩
        · simp only [hrec]
          exact ⟨by simp, fun p _ => hreach⟩
      · rw [if_neg hg]
        rcases hcur : getA nodes c.2 with _ | nd
        · exact absurd hcur
            ((Option.isSome_iff_ne_none.mp (hInv.opn_ok c hmem).1))
        · simp only [hcur]
          have hInv' : AInv d nodes start { st with opn := rest } :=
            { hInv with opn_ok := fun e he => hInv.opn_ok e (hsub e he) }
          exact ih _ (relaxList_inv hd goal hcur nd.connect (fun x hx => hx) _ hInv'
            (hInv.opn_ok c hmem).2)

theorem astarLoop_no_fuelOut {α : Type} [LinearOrderedAddCommMonoid α] [DecidableEq α]
    {d : String → String → α} (hd : ∀ a b, 0 ≤ d a b)
    {nodes : List (String × NodeData)} {start goal : String}
    (hun : ¬ Reach nodes start goal) :
    ∀ (fuel : Nat) (st : AState α), AInv d nodes start st →
      PathInv d nodes start st.g → measureMu d nodes st < fuel →
      astarLoop d nodes goal fuel st ≠ .fuelOut := by
  intro fuel
  induction fuel with
  | zero =>
    intro st _ _ hlt
    exact absurd hlt (by omega)
  | succ fuel ih =>
    intro st hInv hPI hmu
    rcases hpop : popMin st.opn with _ | ⟨c, rest⟩
    · rw [astarLoop_empty d nodes goal fuel st hpop]
      simp
    · rw [astarLoop_step d nodes goal fuel st hpop]
      rcases popMin_spec hpop with ⟨hmem, hsub, hlen⟩
      by_cases hg : c.2 = goal
      · exfalso
        exact hun (hg ▸ hInv.g_reach c.2 (hInv.opn_ok c hmem).2)
      · rw [if_neg hg]
        rcases hcur : getA nodes c.2 with _ | nd
        · exact absurd hcur
            ((Option.isSome_iff_ne_none.mp (hInv.opn_ok c hmem).1))
        · simp only [hcur]
          have hgc : st.g c.2 ≠ ⊤ := (hInv.opn_ok c hmem).2
          have hInv' : AInv d nodes start { st with opn := rest } :=
            { hInv with opn_ok := fun e he => hInv.opn_ok e (hsub e he) }
          have hPI' : PathInv d nodes start ({ st with opn := rest } : AState α).g := hPI
          have hmu1 : measureMu d nodes
              (relaxList d nodes goal c.2 nd.connect { st with opn := rest }) ≤
              measureMu d nodes ({ st with opn := rest } : AState α) :=
            relaxList_measure hd goal hcur nd.connect (fun x hx => hx) _ hInv' hPI' hgc
          have hmu2 : measureMu d nodes ({ st with opn := rest } : AState α) + 1 =
              measureMu d nodes st := by
            unfold measureMu
            show 2 * measureC d (keysOf nodes) st.g + rest.length + 1 =
              2 * measureC d (keysOf nodes) st.g + st.opn.length
            omega
          apply ih
          · exact relaxList_inv hd goal hcur nd.connect (fun x hx => hx) _ hInv' hgc
          · exact relaxList_pathInv hd goal hcur nd.connect (fun x hx => hx) _ hPI' hgc
          · omega

theorem astarInit_pathInv {α : Type} [LinearOrderedAddCommMonoid α]
    (d : String → String → α) (nodes : List (String × NodeData)) (start : String)
    (hs : (getA nodes start).isSome) :
    PathInv d nodes start (astarInit start : AState α).g := by
  intro n hne
  have hns : n = start := by
    by_contra h
    apply hne
    show (if n = start then ((0 : α) : WithTop α) else ⊤) = ⊤
    rw [if_neg h]
  subst hns
  refine ⟨[n], rfl, rfl, List.nodup_singleton n, ?_, ?_, ?_⟩
  · intro x hx
    rcases List.mem_singleton.mp hx with rfl
    exact hs
  · show ((pathSum d [n] : α) : WithTop α) = if n = n then ((0 : α) : WithTop α) else ⊤
    rw [if_pos rfl]
    rfl
  · intro i hi
    have hi0 : i = 0 := Nat.lt_one_iff.mp hi
    subst hi0
    show (if n = n then ((0 : α) : WithTop α) else ⊤) ≤
      ((pathSum d (List.take (0 + 1) [n]) : α) : WithTop α)
    rw [if_pos rfl]
    exact le_refl _

/-- C5 (amended, adding the hypothesis that the goal id is present in the
graph — see the counterexample for why that is necessary): for every graph,
nonnegative edge cost and start/goal ids present in the graph, if the goal is
unreachable from the start then the search raises no exception and returns no
path at any fuel, and for every sufficiently large fuel bound — hence for the
unbounded Python loop, whose iterations are bounded by frontier exhaustion —
it terminates with the distinct "unreachable" result (`return None`). -/
theorem astar_unreachable_noPath {α : Type} [LinearOrderedAddCommMonoid α] [DecidableEq α]
    (d : String → String → α) (nodes : List (String × NodeData)) (start goal : String)
    (hd : ∀ a b, 0 ≤ d a b) (hs : (getA nodes start).isSome)
    (hg : (getA nodes goal).isSome) (hun : ¬ Reach nodes start goal) :
    (∀ fuel, astar d nodes start goal fuel ≠ .exn ∧
        ∀ p, astar d nodes start goal fuel ≠ .path p) ∧
    (∃ N, ∀ fuel, N ≤ fuel → astar d nodes start goal fuel = .noPath) := by
  rcases Option.isSome_iff_exists.mp hs with ⟨nd1, h1⟩
  rcases Option.isSome_iff_exists.mp hg with ⟨nd2, h2⟩
  have hastar : ∀ fuel, astar d nodes start goal fuel =
      astarLoop d nodes goal fuel (astarInit start) := by
    intro fuel
    unfold astar
    rw [h1, h2]
  have hInit := astarInit_inv d nodes start hs
  have hPInit := astarInit_pathInv d nodes start hs
  constructor
  · intro fuel
    rw [hastar fuel]
    rcases astarLoop_safe hd fuel (astarInit start) hInit with ⟨hx, hp⟩
    exact ⟨hx, fun p hpath => hun (hp p hpath)⟩
  · refine ⟨measureMu d nodes (astarInit (α := α) start) + 1, ?_⟩
    intro fuel hfuel
    rw [hastar fuel]
    have hnf := astarLoop_no_fuelOut hd hun fuel (astarInit start) hInit hPInit (by omega)
    rcases astarLoop_safe hd fuel (astarInit start) hInit with ⟨hx, hp⟩
    rcases hres : astarLoop d nodes goal fuel (astarInit start) with _ | _ | _ | p
    · exact absurd hres hx
    · exact absurd hres hnf
    · rfl
    · exact absurd (hp p hres) hun

theorem not_reach_absent {nodes : List (String × NodeData)} {start t : String}
    (hne : t ≠ start) (hnone : getA nodes t = none) : ¬ Reach nodes start t := by
  intro h
  rcases h with _ | ⟨_, _, _, hsome⟩
  · exact hne rfl
  · rw [hnone] at hsome
    simp at hsome

theorem reach_split_only_start : ∀ t, Reach exNodesSplit "P0" t → t = "P0" := by
  intro t h
  induction h with
  | refl => rfl
  | step hr hga hmem hsome ih =>
    rw [ih] at hga
    have h0 : getA exNodesSplit "P0" =
        some { pos := { x := 0, y := 0, z := none }, connect := [] } := rfl
    rw [h0] at hga
    rcases Option.some_inj.mp hga with rfl
    exact absurd hmem (List.not_mem_nil _)

/-- C5 counterexample: a goal id absent from the node dict is trivially
unreachable, yet `astar` raises `KeyError` there (evaluating
`nodes[goal_id]['pos']` for `f_score`) instead of returning the distinct
"unreachable" result without throwing. -/
theorem astar_absent_goal_counterexample :
    (¬ Reach exNodes "P0" "QX") ∧
    astar exCost exNodes "P0" "QX" 20 = .exn ∧
    AStarResult.exn ≠ AStarResult.noPath :=
  ⟨not_reach_absent (by decide) (by decide), by decide, by decide⟩

theorem astar_unreachable_witness :
    (¬ Reach exNodesSplit "P0" "P9") ∧
    ((∀ fuel, astar exCost exNodesSplit "P0" "P9" fuel ≠ .exn ∧
        ∀ p, astar exCost exNodesSplit "P0" "P9" fuel ≠ .path p) ∧
     (∃ N, ∀ fuel, N ≤ fuel → astar exCost exNodesSplit "P0" "P9" fuel = .noPath)) := by
  have hun : ¬ Reach exNodesSplit "P0" "P9" := fun h =>
    absurd (reach_split_only_start "P9" h) (by decide)
  exact ⟨hun, astar_unreachable_noPath exCost exNodesSplit "P0" "P9" exCost_nonneg
    (by decide) (by decide) hun⟩
